import Mathlib

/-!
Verification development for the Custom-DNS-Server repository.

The C++ sources are shallowly embedded: `std::string` values (domain keys,
IPv4 text, raw packets) are modelled as `List Nat` of byte values,
`std::chrono` instants as `Nat`, `std::unordered_map` as association lists
with no duplicate keys, and `std::list` plus its iterators as a `List` of
keys plus a map from key to the position of its node (a `std::list`
iterator is stable under insertion and under erasure of other nodes, which
the explicit index shifting below reproduces).  All definitions are
executable; machine-integer casts are modelled with explicit `% 256`
where the source performs a narrowing cast.
-/

namespace DNS

/-- A C++ `std::string` / byte buffer: a list of byte values. -/
abbrev ByteStr := List Nat

/-- Keys of an association list (models the key set of `std::unordered_map`). -/
def keysOf {α : Type} (m : List (ByteStr × α)) : List ByteStr := m.map Prod.fst

/-- Lookup in an association list (models `unordered_map::find`). -/
def lookupKV {α : Type} : List (ByteStr × α) → ByteStr → Option α
  | [], _ => none
  | p :: ps, k => if p.1 = k then some p.2 else lookupKV ps k

/-- Key removal (models `unordered_map::erase(key)`). -/
def eraseKey {α : Type} (m : List (ByteStr × α)) (k : ByteStr) : List (ByteStr × α) :=
  m.filter (fun p => decide (p.1 ≠ k))

/-- Insert-or-assign (models `unordered_map::operator[] = v`). -/
def setKey {α : Type} (m : List (ByteStr × α)) (k : ByteStr) (v : α) : List (ByteStr × α) :=
  if k ∈ keysOf m then m.map (fun p => if p.1 = k then (k, v) else p) else (k, v) :: m

theorem lookupKV_eq_none {α : Type} (m : List (ByteStr × α)) (k : ByteStr) :
    lookupKV m k = none ↔ k ∉ keysOf m := by
  induction m with
  | nil => simp [lookupKV, keysOf]
  | cons p ps ih =>
    by_cases h : p.1 = k
    · simp [lookupKV, keysOf, h]
    · rw [lookupKV, if_neg h, ih]
      simp only [keysOf, List.map_cons, List.mem_cons]
      constructor
      · rintro hk (rfl | hm)
        · exact h rfl
        · exact hk hm
      · intro hk hm
        exact hk (Or.inr hm)

theorem mem_keysOf_of_lookup {α : Type} {m : List (ByteStr × α)} {k : ByteStr} {v : α}
    (h : lookupKV m k = some v) : k ∈ keysOf m := by
  by_contra hk
  rw [(lookupKV_eq_none m k).2 hk] at h
  exact Option.noConfusion h

theorem lookup_isSome_of_mem_keysOf {α : Type} {m : List (ByteStr × α)} {k : ByteStr}
    (h : k ∈ keysOf m) : ∃ v, lookupKV m k = some v := by
  cases hv : lookupKV m k with
  | none => exact absurd h ((lookupKV_eq_none m k).1 hv)
  | some v => exact ⟨v, rfl⟩

theorem lookup_mem {α : Type} {m : List (ByteStr × α)} {k : ByteStr} {v : α}
    (h : lookupKV m k = some v) : (k, v) ∈ m := by
  induction m with
  | nil => exact absurd h (by simp [lookupKV])
  | cons p ps ih =>
    by_cases hp : p.1 = k
    · rw [lookupKV, if_pos hp] at h
      obtain rfl := Option.some.inj h
      have hkp : (k, p.2) = p := by rw [← hp]
      exact hkp ▸ List.mem_cons_self p ps
    · rw [lookupKV, if_neg hp] at h
      exact List.mem_cons_of_mem _ (ih h)

theorem mem_lookup_of_nodup {α : Type} {m : List (ByteStr × α)} {k : ByteStr} {v : α}
    (nd : (keysOf m).Nodup) (h : (k, v) ∈ m) : lookupKV m k = some v := by
  induction m with
  | nil => cases h
  | cons p ps ih =>
    simp only [keysOf, List.map_cons, List.nodup_cons] at nd
    rcases List.mem_cons.1 h with h | h
    · subst h
      simp [lookupKV]
    · have hne : p.1 ≠ k := by
        intro he
        exact nd.1 (he ▸ (List.mem_map_of_mem Prod.fst h))
      simp only [lookupKV, hne, if_neg, if_false]
      exact ih nd.2 h

theorem mem_keysOf_eraseKey {α : Type} (m : List (ByteStr × α)) (k x : ByteStr) :
    x ∈ keysOf (eraseKey m k) ↔ x ∈ keysOf m ∧ x ≠ k := by
  simp only [keysOf, eraseKey, List.mem_map, List.mem_filter, decide_eq_true_eq]
  constructor
  · rintro ⟨p, ⟨hm, hne⟩, rfl⟩
    exact ⟨⟨p, hm, rfl⟩, hne⟩
  · rintro ⟨⟨p, hm, rfl⟩, hne⟩
    exact ⟨p, ⟨hm, hne⟩, rfl⟩

theorem keysOf_eraseKey_sublist {α : Type} (m : List (ByteStr × α)) (k : ByteStr) :
    (keysOf (eraseKey m k)).Sublist (keysOf m) :=
  List.Sublist.map Prod.fst (List.filter_sublist m)

theorem nodup_keysOf_eraseKey {α : Type} {m : List (ByteStr × α)} (k : ByteStr)
    (nd : (keysOf m).Nodup) : (keysOf (eraseKey m k)).Nodup :=
  (keysOf_eraseKey_sublist m k).nodup nd

theorem lookup_eraseKey_self {α : Type} (m : List (ByteStr × α)) (k : ByteStr) :
    lookupKV (eraseKey m k) k = none := by
  rw [lookupKV_eq_none, mem_keysOf_eraseKey]
  rintro ⟨-, hx⟩
  exact hx rfl

theorem lookup_eraseKey_ne {α : Type} (m : List (ByteStr × α)) {k x : ByteStr}
    (h : x ≠ k) : lookupKV (eraseKey m k) x = lookupKV m x := by
  induction m with
  | nil => rfl
  | cons p ps ih =>
    rw [eraseKey, List.filter_cons]
    by_cases hp : p.1 = k
    · have hpx : p.1 ≠ x := fun he => h (he ▸ hp)
      rw [if_neg (by simp [hp])]
      show lookupKV (eraseKey ps k) x = lookupKV (p :: ps) x
      rw [ih, lookupKV, if_neg hpx]
    · rw [if_pos (by simp [hp])]
      show lookupKV (p :: eraseKey ps k) x = lookupKV (p :: ps) x
      rw [lookupKV, lookupKV]
      by_cases hx : p.1 = x
      · rw [if_pos hx, if_pos hx]
      · rw [if_neg hx, if_neg hx, ih]

theorem length_eraseKey_le {α : Type} (m : List (ByteStr × α)) (k : ByteStr) :
    (eraseKey m k).length ≤ m.length :=
  List.length_filter_le _ m

theorem length_eraseKey_of_mem {α : Type} {m : List (ByteStr × α)} {k : ByteStr}
    (nd : (keysOf m).Nodup) (h : k ∈ keysOf m) :
    (eraseKey m k).length + 1 = m.length := by
  induction m with
  | nil => cases h
  | cons p ps ih =>
    simp only [keysOf, List.map_cons, List.nodup_cons, List.mem_cons] at nd h
    rw [eraseKey, List.filter_cons]
    rcases h with rfl | h
    · rw [if_neg (by simp)]
      show (eraseKey ps p.1).length + 1 = (p :: ps).length
      have he : eraseKey ps p.1 = ps := by
        apply List.filter_eq_self.2
        intro q hq
        simp only [ne_eq, decide_eq_true_eq]
        intro heq
        exact nd.1 (heq ▸ List.mem_map_of_mem Prod.fst hq)
      rw [he, List.length_cons]
    · have hp : p.1 ≠ k := fun heq => nd.1 (heq ▸ h)
      rw [if_pos (by simp [hp])]
      show (p :: eraseKey ps k).length + 1 = (p :: ps).length
      rw [List.length_cons, List.length_cons, ih nd.2 h]

theorem mem_keysOf_setKey {α : Type} (m : List (ByteStr × α)) (k x : ByteStr) (v : α) :
    x ∈ keysOf (setKey m k v) ↔ x ∈ keysOf m ∨ x = k := by
  rw [setKey]
  by_cases hk : k ∈ keysOf m
  · rw [if_pos hk]
    simp only [keysOf, List.map_map, List.mem_map, Function.comp] at hk ⊢
    constructor
    · rintro ⟨a, ha, he⟩
      by_cases hak : a.1 = k
      · rw [if_pos hak] at he
        exact Or.inr he.symm
      · rw [if_neg hak] at he
        exact Or.inl ⟨a, ha, he⟩
    · rintro (⟨a, ha, he⟩ | rfl)
      · by_cases hak : a.1 = k
        · refine ⟨a, ha, ?_⟩
          rw [if_pos hak]
          exact hak ▸ he
        · refine ⟨a, ha, ?_⟩
          rw [if_neg hak]
          exact he
      · obtain ⟨a, ha, hak⟩ := hk
        refine ⟨a, ha, ?_⟩
        rw [if_pos hak]
  · rw [if_neg hk]
    simp only [keysOf, List.map_cons, List.mem_cons]
    tauto

theorem nodup_keysOf_setKey {α : Type} {m : List (ByteStr × α)} (k : ByteStr) (v : α)
    (nd : (keysOf m).Nodup) : (keysOf (setKey m k v)).Nodup := by
  rw [setKey]
  by_cases hk : k ∈ keysOf m
  · rw [if_pos hk]
    have : keysOf (m.map (fun p => if p.1 = k then (k, v) else p)) = keysOf m := by
      simp only [keysOf, List.map_map]
      apply List.map_congr_left
      intro p hp
      by_cases hpk : p.1 = k
      · simp [hpk]
      · simp [hpk]
    rw [this]
    exact nd
  · rw [if_neg hk]
    simp only [keysOf, List.map_cons, List.nodup_cons]
    exact ⟨hk, nd⟩

theorem lookup_setKey_self {α : Type} (m : List (ByteStr × α)) (k : ByteStr) (v : α) :
    lookupKV (setKey m k v) k = some v := by
  rw [setKey]
  by_cases hk : k ∈ keysOf m
  · rw [if_pos hk]
    simp only [keysOf, List.mem_map] at hk
    obtain ⟨a, ha, hak⟩ := hk
    induction m with
    | nil => cases ha
    | cons p ps ih =>
      rcases List.mem_cons.1 ha with rfl | ha
      · rw [List.map_cons, if_pos hak, lookupKV, if_pos rfl]
      · rw [List.map_cons]
        by_cases hpk : p.1 = k
        · rw [if_pos hpk, lookupKV, if_pos rfl]
        · rw [if_neg hpk, lookupKV, if_neg hpk]
          exact ih ha
  · rw [if_neg hk, lookupKV, if_pos rfl]

theorem lookup_setKey_ne {α : Type} (m : List (ByteStr × α)) {k x : ByteStr} (v : α)
    (h : x ≠ k) : lookupKV (setKey m k v) x = lookupKV m x := by
  rw [setKey]
  by_cases hk : k ∈ keysOf m
  · rw [if_pos hk]
    clear hk
    induction m with
    | nil => rfl
    | cons p ps ih =>
      rw [List.map_cons]
      by_cases hpk : p.1 = k
      · have hpx : p.1 ≠ x := fun he => h (he ▸ hpk)
        rw [if_pos hpk, lookupKV, if_neg (fun he => h he.symm), lookupKV, if_neg hpx]
        exact ih
      · rw [if_neg hpk, lookupKV, lookupKV]
        by_cases hpx : p.1 = x
        · rw [if_pos hpx, if_pos hpx]
        · rw [if_neg hpx, if_neg hpx]
          exact ih
  · rw [if_neg hk, lookupKV, if_neg (fun he => h he.symm)]

theorem length_setKey_of_mem {α : Type} {m : List (ByteStr × α)} {k : ByteStr} (v : α)
    (h : k ∈ keysOf m) : (setKey m k v).length = m.length := by
  rw [setKey, if_pos h, List.length_map]

theorem length_setKey_of_not_mem {α : Type} {m : List (ByteStr × α)} {k : ByteStr} (v : α)
    (h : k ∉ keysOf m) : (setKey m k v).length = m.length + 1 := by
  rw [setKey, if_neg h, List.length_cons]

/-- Models the fact that erasing a `std::list` node at position `i` leaves every
iterator to a node after it pointing to the same node, now at position one less. -/
def shiftDownIdx (i : Nat) (m : List (ByteStr × Nat)) : List (ByteStr × Nat) :=
  m.map (fun p => if i < p.2 then (p.1, p.2 - 1) else p)

/-- Models `push_front` on a `std::list`: every existing node's position grows by one. -/
def shiftUpIdx (m : List (ByteStr × Nat)) : List (ByteStr × Nat) :=
  m.map (fun p => (p.1, p.2 + 1))

theorem keysOf_shiftDownIdx (i : Nat) (m : List (ByteStr × Nat)) :
    keysOf (shiftDownIdx i m) = keysOf m := by
  simp only [keysOf, shiftDownIdx, List.map_map]
  apply List.map_congr_left
  intro p hp
  by_cases h : i < p.2
  · simp [h]
  · simp [h]

theorem keysOf_shiftUpIdx (m : List (ByteStr × Nat)) :
    keysOf (shiftUpIdx m) = keysOf m := by
  simp [keysOf, shiftUpIdx, List.map_map, Function.comp]

theorem lookup_shiftDownIdx (i : Nat) (m : List (ByteStr × Nat)) (k : ByteStr) :
    lookupKV (shiftDownIdx i m) k
      = (lookupKV m k).map (fun j => if i < j then j - 1 else j) := by
  induction m with
  | nil => rfl
  | cons p ps ih =>
    by_cases hp : p.1 = k
    · by_cases hi : i < p.2
      · rw [shiftDownIdx, List.map_cons, if_pos hi, lookupKV, if_pos hp, lookupKV,
          if_pos hp, Option.map_some', if_pos hi]
      · rw [shiftDownIdx, List.map_cons, if_neg hi, lookupKV, if_pos hp, lookupKV,
          if_pos hp, Option.map_some', if_neg hi]
    · by_cases hi : i < p.2
      · rw [shiftDownIdx, List.map_cons, if_pos hi, lookupKV, if_neg hp, lookupKV,
          if_neg hp, ← ih, shiftDownIdx]
      · rw [shiftDownIdx, List.map_cons, if_neg hi, lookupKV, if_neg hp, lookupKV,
          if_neg hp, ← ih, shiftDownIdx]

theorem lookup_shiftUpIdx (m : List (ByteStr × Nat)) (k : ByteStr) :
    lookupKV (shiftUpIdx m) k = (lookupKV m k).map (fun j => j + 1) := by
  induction m with
  | nil => rfl
  | cons p ps ih =>
    by_cases hp : p.1 = k
    · rw [shiftUpIdx, List.map_cons, lookupKV, if_pos hp, lookupKV, if_pos hp,
        Option.map_some']
    · rw [shiftUpIdx, List.map_cons, lookupKV, if_neg hp, lookupKV, if_neg hp,
        ← ih, shiftUpIdx]

theorem getElem?_eraseIdx_lt {α : Type} (l : List α) (i j : Nat) (h : j < i) :
    (l.eraseIdx i)[j]? = l[j]? := by
  induction l generalizing i j with
  | nil => rfl
  | cons a as ih =>
    cases i with
    | zero => cases h
    | succ i =>
      cases j with
      | zero =>
        rw [List.eraseIdx_cons_succ, List.getElem?_cons_zero, List.getElem?_cons_zero]
      | succ j =>
        rw [List.eraseIdx_cons_succ, List.getElem?_cons_succ, List.getElem?_cons_succ]
        exact ih i j (Nat.lt_of_succ_lt_succ h)

theorem getElem?_eraseIdx_ge {α : Type} (l : List α) (i j : Nat) (h : i ≤ j) :
    (l.eraseIdx i)[j]? = l[j + 1]? := by
  induction l generalizing i j with
  | nil => rfl
  | cons a as ih =>
    cases i with
    | zero => rw [List.eraseIdx_cons_zero, List.getElem?_cons_succ]
    | succ i =>
      cases j with
      | zero => cases h
      | succ j =>
        rw [List.eraseIdx_cons_succ, List.getElem?_cons_succ, List.getElem?_cons_succ]
        exact ih i j (Nat.le_of_succ_le_succ h)

theorem not_mem_eraseIdx_of_nodup {α : Type} {l : List α} {i : Nat} {a : α}
    (nd : l.Nodup) (h : l[i]? = some a) : a ∉ l.eraseIdx i := by
  induction l generalizing i with
  | nil => simp [List.eraseIdx]
  | cons b bs ih =>
    rcases List.nodup_cons.1 nd with ⟨hb, hbs⟩
    cases i with
    | zero =>
      rw [List.getElem?_cons_zero] at h
      obtain rfl := Option.some.inj h
      rw [List.eraseIdx_cons_zero]
      exact hb
    | succ i =>
      rw [List.getElem?_cons_succ] at h
      rw [List.eraseIdx_cons_succ]
      intro hmem
      rcases List.mem_cons.1 hmem with rfl | hmem
      · exact hb (List.getElem?_mem h)
      · exact ih hbs h hmem

theorem eraseIdx_eq_erase_of_nodup {α : Type} [BEq α] [LawfulBEq α] {l : List α} {i : Nat} {a : α}
    (nd : l.Nodup) (h : l[i]? = some a) : l.eraseIdx i = l.erase a := by
  induction l generalizing i with
  | nil => rfl
  | cons b bs ih =>
    rcases List.nodup_cons.1 nd with ⟨hb, hbs⟩
    cases i with
    | zero =>
      rw [List.getElem?_cons_zero] at h
      obtain rfl := Option.some.inj h
      rw [List.eraseIdx_cons_zero, List.erase_cons_head]
    | succ i =>
      rw [List.getElem?_cons_succ] at h
      have hba : b ≠ a := fun he => hb (he ▸ List.getElem?_mem h)
      rw [List.eraseIdx_cons_succ, List.erase_cons_tail, ih hbs h]
      simp [hba]

/-- One cache entry (`CacheEntry` in dns_server.h): textual IPv4, absolute expiry
instant (`now + ttl` seconds at construction), per-entry hit counter. -/
structure CacheEntry where
  ip : ByteStr
  expiry : Nat
  hits : Nat
deriving DecidableEq, Repr

/-- `FastDNSCache::CACHE_SIZE`. -/
def CACHE_SIZE : Nat := 8192

/-- `FastDNSCache::NUM_SHARDS`. -/
def NUM_SHARDS : Nat := 16

/-- `FastDNSCache::MAX_ENTRIES_PER_SHARD = CACHE_SIZE / NUM_SHARDS`. -/
def MAX_ENTRIES_PER_SHARD : Nat := CACHE_SIZE / NUM_SHARDS

/-- One shard of `FastDNSCache`: the entry map, the recency list (front = MRU),
and the iterator map from key to the position of its node in the recency list.
The three per-shard counters are plain naturals (atomics are only read/written
under the shard mutex or with relaxed ordering; sequential semantics). -/
structure Shard where
  entries : List (ByteStr × CacheEntry)
  lru_list : List ByteStr
  lru_map : List (ByteStr × Nat)
  hits : Nat
  misses : Nat
  evictions : Nat
deriving DecidableEq, Repr

def Shard.empty : Shard := ⟨[], [], [], 0, 0, 0⟩

/-- `Shard::touch_lru`: erase the node the iterator map points to (if any),
push the domain at the front, and point the map at the new front node. -/
def Shard.touch_lru (s : Shard) (domain : ByteStr) : Shard :=
  match lookupKV s.lru_map domain with
  | some i =>
      { s with lru_list := domain :: s.lru_list.eraseIdx i,
               lru_map := setKey (shiftUpIdx (shiftDownIdx i s.lru_map)) domain 0 }
  | none =>
      { s with lru_list := domain :: s.lru_list,
               lru_map := setKey (shiftUpIdx s.lru_map) domain 0 }

/-- `Shard::evict_lru`: when the shard is at capacity, drop the key at the back
of the recency list from all three structures and count one eviction. -/
def Shard.evict_lru (s : Shard) : Shard :=
  if MAX_ENTRIES_PER_SHARD ≤ s.entries.length ∧ s.lru_list ≠ [] then
    match s.lru_list.getLast? with
    | some oldest =>
        { s with entries := eraseKey s.entries oldest,
                 lru_map := eraseKey s.lru_map oldest,
                 lru_list := s.lru_list.dropLast,
                 evictions := s.evictions + 1 }
    | none => s
  else s

/-- The recency-side removal both `cleanup_expired` and the defensive branch of
`get` perform: erase the node `lru_map` points to, then the map entry. -/
def Shard.removeFromLru (s : Shard) (k : ByteStr) : Shard :=
  match lookupKV s.lru_map k with
  | some i =>
      { s with lru_list := s.lru_list.eraseIdx i,
               lru_map := shiftDownIdx i (eraseKey s.lru_map k) }
  | none => s

/-- Removal of one key from all three structures. -/
def Shard.removeKey (s : Shard) (k : ByteStr) : Shard :=
  let s1 := s.removeFromLru k
  { s1 with entries := eraseKey s1.entries k }

/-- `Shard::cleanup_expired`: remove every entry with `expiry ≤ now` together
with its recency node and iterator-map entry. -/
def Shard.cleanup_expired (s : Shard) (now : Nat) : Shard :=
  s.entries.foldl (fun t p => if p.2.expiry ≤ now then t.removeKey p.1 else t) s

/-- Shard-level body of `FastDNSCache::get` (after shard routing, under the
shard lock): sweep, look up, and on a valid hit bump counters and touch. -/
def Shard.get (s : Shard) (now : Nat) (domain : ByteStr) : Option ByteStr × Shard :=
  let s1 := s.cleanup_expired now
  match lookupKV s1.entries domain with
  | some e =>
      if now < e.expiry then
        let s2 := { s1 with
          entries := setKey s1.entries domain { e with hits := e.hits + 1 },
          hits := s1.hits + 1 }
        (some e.ip, s2.touch_lru domain)
      else
        let s2 := s1.removeKey domain
        (none, { s2 with misses := s2.misses + 1 })
  | none => (none, { s1 with misses := s1.misses + 1 })

/-- Shard-level body of `FastDNSCache::set`: sweep, evict once if at capacity,
insert or overwrite the entry, touch to MRU front. -/
def Shard.set (s : Shard) (now : Nat) (domain ip : ByteStr) (ttl : Nat) : Shard :=
  let s1 := s.cleanup_expired now
  let s2 := s1.evict_lru
  let s3 := { s2 with entries := setKey s2.entries domain ⟨ip, now + ttl, 0⟩ }
  s3.touch_lru domain

/-- The sharded cache: 16 independent shards.  Shard routing
(`hash<string> & (NUM_SHARDS-1)`) is implementation-defined but deterministic,
so it is abstracted as a function parameter. -/
structure FastDNSCache where
  shards : Fin NUM_SHARDS → Shard

def FastDNSCache.empty : FastDNSCache := ⟨fun _ => Shard.empty⟩

def FastDNSCache.get (hash : ByteStr → Fin NUM_SHARDS) (c : FastDNSCache)
    (now : Nat) (domain : ByteStr) : Option ByteStr × FastDNSCache :=
  let i := hash domain
  let r := (c.shards i).get now domain
  (r.1, ⟨fun j => if j = i then r.2 else c.shards j⟩)

def FastDNSCache.set (hash : ByteStr → Fin NUM_SHARDS) (c : FastDNSCache)
    (now : Nat) (domain ip : ByteStr) (ttl : Nat) : FastDNSCache :=
  let i := hash domain
  ⟨fun j => if j = i then (c.shards i).set now domain ip ttl else c.shards j⟩

def FastDNSCache.cleanup_expired (c : FastDNSCache) (now : Nat) : FastDNSCache :=
  ⟨fun j => (c.shards j).cleanup_expired now⟩

/-- The public cache operations, as data, for reasoning about arbitrary
operation sequences. -/
inductive CacheOp where
  | get (now : Nat) (domain : ByteStr)
  | set (now : Nat) (domain ip : ByteStr) (ttl : Nat)
  | cleanup (now : Nat)

def Shard.applyOp (s : Shard) : CacheOp → Shard
  | .get now d => (s.get now d).2
  | .set now d ip ttl => s.set now d ip ttl
  | .cleanup now => s.cleanup_expired now

def FastDNSCache.applyOp (hash : ByteStr → Fin NUM_SHARDS) (c : FastDNSCache) :
    CacheOp → FastDNSCache
  | .get now d => (c.get hash now d).2
  | .set now d ip ttl => c.set hash now d ip ttl
  | .cleanup now => c.cleanup_expired now

/-- The cache state after running a sequence of public operations from startup. -/
def FastDNSCache.run (hash : ByteStr → Fin NUM_SHARDS) (ops : List CacheOp) :
    FastDNSCache :=
  ops.foldl (FastDNSCache.applyOp hash) FastDNSCache.empty

/-- The cross-structure shard invariant: no duplicate keys anywhere, the three
key sets coincide, and the iterator map sends each key to the position of the
recency-list node holding that key. -/
def Inv (s : Shard) : Prop :=
  (keysOf s.entries).Nodup ∧
  (keysOf s.lru_map).Nodup ∧
  s.lru_list.Nodup ∧
  (∀ k ∈ keysOf s.entries, k ∈ keysOf s.lru_map) ∧
  (∀ k ∈ keysOf s.lru_map, k ∈ keysOf s.entries) ∧
  (∀ p ∈ s.lru_map, s.lru_list[p.2]? = some p.1) ∧
  (∀ k ∈ s.lru_list, k ∈ keysOf s.lru_map)

instance InvDecidable (s : Shard) : Decidable (Inv s) := by
  unfold Inv
  infer_instance

theorem Inv_empty : Inv Shard.empty := by
  refine ⟨List.nodup_nil, List.nodup_nil, List.nodup_nil, ?_, ?_, ?_, ?_⟩ <;>
    intro x hx <;> cases hx

theorem keysOf_setKey_of_mem {α : Type} {m : List (ByteStr × α)} {k : ByteStr} (v : α)
    (h : k ∈ keysOf m) : keysOf (setKey m k v) = keysOf m := by
  rw [setKey, if_pos h]
  simp only [keysOf, List.map_map]
  apply List.map_congr_left
  intro p hp
  by_cases hpk : p.1 = k
  · simp [hpk]
  · simp [hpk]

theorem keysOf_setKey_of_not_mem {α : Type} {m : List (ByteStr × α)} {k : ByteStr} (v : α)
    (h : k ∉ keysOf m) : keysOf (setKey m k v) = k :: keysOf m := by
  rw [setKey, if_neg h, keysOf, List.map_cons]
  rfl

theorem mem_setKey_elim {α : Type} {m : List (ByteStr × α)} {k : ByteStr} {v : α}
    {p : ByteStr × α} (h : p ∈ setKey m k v) :
    p = (k, v) ∨ (p ∈ m ∧ p.1 ≠ k) := by
  rw [setKey] at h
  by_cases hk : k ∈ keysOf m
  · rw [if_pos hk] at h
    obtain ⟨a, ha, he⟩ := List.mem_map.1 h
    by_cases hak : a.1 = k
    · rw [if_pos hak] at he
      exact Or.inl he.symm
    · rw [if_neg hak] at he
      exact Or.inr ⟨he ▸ ha, he ▸ hak⟩
  · rw [if_neg hk] at h
    rcases List.mem_cons.1 h with rfl | hm
    · exact Or.inl rfl
    · by_cases hpk : p.1 = k
      · exact absurd (hpk ▸ List.mem_map_of_mem Prod.fst hm) hk
      · exact Or.inr ⟨hm, hpk⟩

theorem mem_eraseKey_elim {α : Type} {m : List (ByteStr × α)} {k : ByteStr}
    {p : ByteStr × α} (h : p ∈ eraseKey m k) : p ∈ m ∧ p.1 ≠ k := by
  have := List.mem_filter.1 h
  exact ⟨this.1, by simpa using this.2⟩

/-- `touch_lru` preserves all cross-structure invariants, provided the touched
domain is an entry key and every other entry key is already tracked. -/
theorem Inv_touch_lru {s : Shard} {d : ByteStr}
    (ndE : (keysOf s.entries).Nodup)
    (ndM : (keysOf s.lru_map).Nodup)
    (ndL : s.lru_list.Nodup)
    (hEM : ∀ k ∈ keysOf s.entries, k ∈ keysOf s.lru_map ∨ k = d)
    (hME : ∀ k ∈ keysOf s.lru_map, k ∈ keysOf s.entries)
    (hd : d ∈ keysOf s.entries)
    (point : ∀ p ∈ s.lru_map, s.lru_list[p.2]? = some p.1)
    (hLM : ∀ k ∈ s.lru_list, k ∈ keysOf s.lru_map) :
    Inv (s.touch_lru d) := by
  rw [Shard.touch_lru]
  cases hfind : lookupKV s.lru_map d with
  | some i =>
    have hdm : d ∈ keysOf s.lru_map := mem_keysOf_of_lookup hfind
    have hid : s.lru_list[i]? = some d := point _ (lookup_mem hfind)
    have hkeys : keysOf (setKey (shiftUpIdx (shiftDownIdx i s.lru_map)) d 0)
        = keysOf s.lru_map := by
      rw [keysOf_setKey_of_mem 0 (by rw [keysOf_shiftUpIdx, keysOf_shiftDownIdx]; exact hdm),
        keysOf_shiftUpIdx, keysOf_shiftDownIdx]
    refine ⟨ndE, ?_, ?_, ?_, ?_, ?_, ?_⟩
    · rw [hkeys]
      exact ndM
    · exact List.nodup_cons.2
        ⟨not_mem_eraseIdx_of_nodup ndL hid, ((List.eraseIdx_sublist _ i).nodup ndL)⟩
    · intro k hk
      rw [hkeys]
      rcases hEM k hk with h | rfl
      · exact h
      · exact hdm
    · intro k hk
      rw [hkeys] at hk
      exact hME k hk
    · intro p hp
      rcases mem_setKey_elim hp with rfl | ⟨hp, hpd⟩
      · exact List.getElem?_cons_zero
      · simp only [shiftUpIdx, shiftDownIdx, List.map_map, List.mem_map,
          Function.comp] at hp
        obtain ⟨q, hq, rfl⟩ := hp
        have hql : s.lru_list[q.2]? = some q.1 := point q hq
        by_cases hcmp : i < q.2
        · rw [if_pos hcmp] at hpd ⊢
          have he : q.2 - 1 + 1 = q.2 := by omega
          show (d :: s.lru_list.eraseIdx i)[q.2 - 1 + 1]? = some q.1
          rw [List.getElem?_cons_succ, getElem?_eraseIdx_ge _ i _ (by omega), he]
          exact hql
        · rw [if_neg hcmp] at hpd ⊢
          have hqd : q.1 ≠ d := hpd
          have hqi : q.2 ≠ i := by
            intro he
            rw [he, hid] at hql
            exact hqd (Option.some.inj hql).symm
          show (d :: s.lru_list.eraseIdx i)[q.2 + 1]? = some q.1
          rw [List.getElem?_cons_succ, getElem?_eraseIdx_lt _ i _ (by omega)]
          exact hql
    · intro k hk
      rw [hkeys]
      rcases List.mem_cons.1 hk with rfl | hk
      · exact hdm
      · exact hLM k ((List.eraseIdx_sublist _ i).mem hk)
  | none =>
    have hdm : d ∉ keysOf s.lru_map := by
      intro h
      obtain ⟨v, hv⟩ := lookup_isSome_of_mem_keysOf h
      rw [hfind] at hv
      exact Option.noConfusion hv
    have hdm' : d ∉ keysOf (shiftUpIdx s.lru_map) := by
      rw [keysOf_shiftUpIdx]
      exact hdm
    have hkeys : keysOf (setKey (shiftUpIdx s.lru_map) d 0) = d :: keysOf s.lru_map := by
      rw [keysOf_setKey_of_not_mem 0 hdm', keysOf_shiftUpIdx]
    have hdl : d ∉ s.lru_list := fun h => hdm (hLM d h)
    refine ⟨ndE, ?_, List.nodup_cons.2 ⟨hdl, ndL⟩, ?_, ?_, ?_, ?_⟩
    · rw [hkeys]
      exact List.nodup_cons.2 ⟨hdm, ndM⟩
    · intro k hk
      rw [hkeys]
      rcases hEM k hk with h | rfl
      · exact List.mem_cons_of_mem _ h
      · exact List.mem_cons_self _ _
    · intro k hk
      rw [hkeys] at hk
      rcases List.mem_cons.1 hk with rfl | hk
      · exact hd
      · exact hME k hk
    · intro p hp
      rcases mem_setKey_elim hp with rfl | ⟨hp, hpd⟩
      · exact List.getElem?_cons_zero
      · simp only [shiftUpIdx, List.mem_map] at hp
        obtain ⟨q, hq, rfl⟩ := hp
        rw [List.getElem?_cons_succ]
        exact point q hq
    · intro k hk
      rw [hkeys]
      rcases List.mem_cons.1 hk with rfl | hk
      · exact List.mem_cons_self _ _
      · exact List.mem_cons_of_mem _ (hLM k hk)

theorem Inv_removeKey {s : Shard} (k : ByteStr) (h : Inv s) : Inv (s.removeKey k) := by
  obtain ⟨ndE, ndM, ndL, hEM, hME, point, hLM⟩ := h
  rw [Shard.removeKey, Shard.removeFromLru]
  cases hfind : lookupKV s.lru_map k with
  | some i =>
    have hid : s.lru_list[i]? = some k := point _ (lookup_mem hfind)
    have hkeys : keysOf (shiftDownIdx i (eraseKey s.lru_map k)) = keysOf (eraseKey s.lru_map k) :=
      keysOf_shiftDownIdx i _
    refine ⟨nodup_keysOf_eraseKey k ndE, ?_, (List.eraseIdx_sublist _ i).nodup ndL,
      ?_, ?_, ?_, ?_⟩
    · rw [hkeys]
      exact nodup_keysOf_eraseKey k ndM
    · intro x hx
      rw [hkeys, mem_keysOf_eraseKey]
      rw [mem_keysOf_eraseKey] at hx
      exact ⟨hEM x hx.1, hx.2⟩
    · intro x hx
      rw [hkeys, mem_keysOf_eraseKey] at hx
      rw [mem_keysOf_eraseKey]
      exact ⟨hME x hx.1, hx.2⟩
    · intro p hp
      simp only [shiftDownIdx, List.mem_map] at hp
      obtain ⟨q, hq, rfl⟩ := hp
      obtain ⟨hqm, hqk⟩ := mem_eraseKey_elim hq
      have hql : s.lru_list[q.2]? = some q.1 := point q hqm
      have hqi : q.2 ≠ i := by
        intro he
        rw [he, hid] at hql
        exact hqk (Option.some.inj hql).symm
      by_cases hcmp : i < q.2
      · rw [if_pos hcmp]
        have he : q.2 - 1 + 1 = q.2 := by omega
        show (s.lru_list.eraseIdx i)[q.2 - 1]? = some q.1
        rw [getElem?_eraseIdx_ge _ i _ (by omega), he]
        exact hql
      · rw [if_neg hcmp]
        show (s.lru_list.eraseIdx i)[q.2]? = some q.1
        rw [getElem?_eraseIdx_lt _ i _ (by omega)]
        exact hql
    · intro x hx
      have hxl : x ∈ s.lru_list := (List.eraseIdx_sublist _ i).mem hx
      have hxk : x ≠ k := by
        rintro rfl
        exact not_mem_eraseIdx_of_nodup ndL hid hx
      rw [hkeys, mem_keysOf_eraseKey]
      exact ⟨hLM x hxl, hxk⟩
  | none =>
    have hkm : k ∉ keysOf s.lru_map := (lookupKV_eq_none _ _).1 hfind
    refine ⟨nodup_keysOf_eraseKey k ndE, ndM, ndL, ?_, ?_, point, hLM⟩
    · intro x hx
      rw [mem_keysOf_eraseKey] at hx
      exact hEM x hx.1
    · intro x hx
      rw [mem_keysOf_eraseKey]
      refine ⟨hME x hx, ?_⟩
      rintro rfl
      exact hkm hx

theorem Inv_evict_lru {s : Shard} (h : Inv s) : Inv s.evict_lru := by
  obtain ⟨ndE, ndM, ndL, hEM, hME, point, hLM⟩ := h
  rw [Shard.evict_lru]
  by_cases hcond : MAX_ENTRIES_PER_SHARD ≤ s.entries.length ∧ s.lru_list ≠ []
  · rw [if_pos hcond]
    cases hlast : s.lru_list.getLast? with
    | none => exact ⟨ndE, ndM, ndL, hEM, hME, point, hLM⟩
    | some w =>
      have hlen : s.lru_list.length ≠ 0 := fun he => hcond.2 (List.length_eq_zero.1 he)
      have hwl : s.lru_list[s.lru_list.length - 1]? = some w := by
        rw [← List.getLast?_eq_getElem?]
        exact hlast
      have hdrop : s.lru_list.dropLast = s.lru_list.eraseIdx (s.lru_list.length - 1) :=
        List.dropLast_eq_eraseIdx (by omega)
      refine ⟨nodup_keysOf_eraseKey w ndE, nodup_keysOf_eraseKey w ndM, ?_, ?_, ?_, ?_, ?_⟩
      · rw [hdrop]
        exact (List.eraseIdx_sublist _ _).nodup ndL
      · intro x hx
        rw [mem_keysOf_eraseKey] at hx ⊢
        exact ⟨hEM x hx.1, hx.2⟩
      · intro x hx
        rw [mem_keysOf_eraseKey] at hx ⊢
        exact ⟨hME x hx.1, hx.2⟩
      · intro p hp
        obtain ⟨hpm, hpw⟩ := mem_eraseKey_elim hp
        have hpl : s.lru_list[p.2]? = some p.1 := point p hpm
        have hpi : p.2 ≠ s.lru_list.length - 1 := by
          intro he
          rw [he, hwl] at hpl
          exact hpw (Option.some.inj hpl).symm
        have hplt : p.2 < s.lru_list.length := (List.getElem?_eq_some_iff.1 hpl).1
        rw [hdrop, getElem?_eraseIdx_lt _ _ _ (by omega)]
        exact hpl
      · intro x hx
        rw [hdrop] at hx
        have hxl : x ∈ s.lru_list := (List.eraseIdx_sublist _ _).mem hx
        have hxw : x ≠ w := by
          rintro rfl
          exact not_mem_eraseIdx_of_nodup ndL hwl hx
        rw [mem_keysOf_eraseKey]
        exact ⟨hLM x hxl, hxw⟩
  · rw [if_neg hcond]
    exact ⟨ndE, ndM, ndL, hEM, hME, point, hLM⟩

theorem Inv_cleanup_fold {now : Nat} (L : List (ByteStr × CacheEntry)) :
    ∀ t : Shard, Inv t →
      Inv (L.foldl (fun t p => if p.2.expiry ≤ now then t.removeKey p.1 else t) t) := by
  induction L with
  | nil => exact fun t ht => ht
  | cons p ps ih =>
    intro t ht
    rw [List.foldl_cons]
    by_cases hp : p.2.expiry ≤ now
    · rw [if_pos hp]
      exact ih _ (Inv_removeKey p.1 ht)
    · rw [if_neg hp]
      exact ih _ ht

theorem Inv_cleanup_expired {s : Shard} (now : Nat) (h : Inv s) :
    Inv (s.cleanup_expired now) :=
  Inv_cleanup_fold s.entries s h

theorem touch_lru_entries (s : Shard) (d : ByteStr) :
    (s.touch_lru d).entries = s.entries := by
  rw [Shard.touch_lru]
  cases lookupKV s.lru_map d <;> rfl

theorem touch_lru_counters (s : Shard) (d : ByteStr) :
    (s.touch_lru d).hits = s.hits ∧ (s.touch_lru d).misses = s.misses ∧
      (s.touch_lru d).evictions = s.evictions := by
  rw [Shard.touch_lru]
  cases lookupKV s.lru_map d <;> exact ⟨rfl, rfl, rfl⟩

theorem removeFromLru_entries (s : Shard) (k : ByteStr) :
    (s.removeFromLru k).entries = s.entries := by
  rw [Shard.removeFromLru]
  cases lookupKV s.lru_map k <;> rfl

theorem removeFromLru_counters (s : Shard) (k : ByteStr) :
    (s.removeFromLru k).hits = s.hits ∧ (s.removeFromLru k).misses = s.misses ∧
      (s.removeFromLru k).evictions = s.evictions := by
  rw [Shard.removeFromLru]
  cases lookupKV s.lru_map k <;> exact ⟨rfl, rfl, rfl⟩

theorem removeKey_entries (s : Shard) (k : ByteStr) :
    (s.removeKey k).entries = eraseKey s.entries k := by
  rw [Shard.removeKey]
  rw [removeFromLru_entries]

theorem removeKey_counters (s : Shard) (k : ByteStr) :
    (s.removeKey k).hits = s.hits ∧ (s.removeKey k).misses = s.misses ∧
      (s.removeKey k).evictions = s.evictions :=
  removeFromLru_counters s k

theorem cleanup_counters (s : Shard) (now : Nat) :
    (s.cleanup_expired now).hits = s.hits ∧ (s.cleanup_expired now).misses = s.misses ∧
      (s.cleanup_expired now).evictions = s.evictions := by
  rw [Shard.cleanup_expired]
  generalize s.entries = L
  induction L generalizing s with
  | nil => exact ⟨rfl, rfl, rfl⟩
  | cons p ps ih =>
    rw [List.foldl_cons]
    by_cases hp : p.2.expiry ≤ now
    · rw [if_pos hp]
      obtain ⟨h1, h2, h3⟩ := ih (s.removeKey p.1)
      obtain ⟨g1, g2, g3⟩ := removeKey_counters s p.1
      exact ⟨h1.trans g1, h2.trans g2, h3.trans g3⟩
    · rw [if_neg hp]
      exact ih s

theorem length_cleanup_fold_le (now : Nat) (L : List (ByteStr × CacheEntry)) :
    ∀ t : Shard,
      ((L.foldl (fun t p => if p.2.expiry ≤ now then t.removeKey p.1 else t) t).entries).length
        ≤ t.entries.length := by
  induction L with
  | nil => exact fun t => Nat.le_refl _
  | cons p ps ih =>
    intro t
    rw [List.foldl_cons]
    by_cases hp : p.2.expiry ≤ now
    · rw [if_pos hp]
      refine Nat.le_trans (ih (t.removeKey p.1)) ?_
      rw [removeKey_entries]
      exact length_eraseKey_le _ _
    · rw [if_neg hp]
      exact ih t

theorem length_cleanup_le (s : Shard) (now : Nat) :
    (s.cleanup_expired now).entries.length ≤ s.entries.length := by
  rw [Shard.cleanup_expired]
  exact length_cleanup_fold_le now s.entries s

theorem entries_eq_nil_of_lru_nil {s : Shard} (h : Inv s) (hl : s.lru_list = []) :
    s.entries = [] := by
  obtain ⟨-, -, -, hEM, -, point, -⟩ := h
  rw [List.eq_nil_iff_forall_not_mem]
  intro p hp
  have hk : p.1 ∈ keysOf s.lru_map := hEM p.1 (List.mem_map_of_mem Prod.fst hp)
  obtain ⟨v, hv⟩ := lookup_isSome_of_mem_keysOf hk
  have := point _ (lookup_mem hv)
  rw [hl] at this
  simp at this

theorem Inv_get {s : Shard} (now : Nat) (d : ByteStr) (h : Inv s) :
    Inv (s.get now d).2 := by
  obtain ⟨ndE, ndM, ndL, hEM, hME, point, hLM⟩ := Inv_cleanup_expired now h
  cases hfind : lookupKV (s.cleanup_expired now).entries d with
  | some e =>
    by_cases hv : now < e.expiry
    · simp only [Shard.get, hfind, if_pos hv]
      have hdE : d ∈ keysOf (s.cleanup_expired now).entries := mem_keysOf_of_lookup hfind
      refine Inv_touch_lru ?_ ndM ndL ?_ ?_ ?_ point hLM
      · rw [keysOf_setKey_of_mem _ hdE]
        exact ndE
      · intro k hk
        rw [keysOf_setKey_of_mem _ hdE] at hk
        exact Or.inl (hEM k hk)
      · intro k hk
        rw [keysOf_setKey_of_mem _ hdE]
        exact hME k hk
      · rw [keysOf_setKey_of_mem _ hdE]
        exact hdE
    · simp only [Shard.get, hfind, if_neg hv]
      exact Inv_removeKey d ⟨ndE, ndM, ndL, hEM, hME, point, hLM⟩
  | none =>
    simp only [Shard.get, hfind]
    exact ⟨ndE, ndM, ndL, hEM, hME, point, hLM⟩

theorem Inv_set {s : Shard} (now : Nat) (d ip : ByteStr) (ttl : Nat) (h : Inv s) :
    Inv (s.set now d ip ttl) := by
  obtain ⟨ndE, ndM, ndL, hEM, hME, point, hLM⟩ :=
    Inv_evict_lru (Inv_cleanup_expired now h)
  show Inv (Shard.touch_lru _ d)
  refine Inv_touch_lru ?_ ndM ndL ?_ ?_ ?_ point hLM
  · exact nodup_keysOf_setKey d _ ndE
  · intro k hk
    rcases (mem_keysOf_setKey _ d k _).1 hk with hk' | rfl
    · exact Or.inl (hEM k hk')
    · exact Or.inr rfl
  · intro k hk
    exact (mem_keysOf_setKey _ d k _).2 (Or.inl (hME k hk))
  · exact (mem_keysOf_setKey _ d _ _).2 (Or.inr rfl)

theorem Inv_applyOp {s : Shard} (op : CacheOp) (h : Inv s) : Inv (s.applyOp op) := by
  cases op with
  | get now d => exact Inv_get now d h
  | set now d ip ttl => exact Inv_set now d ip ttl h
  | cleanup now => exact Inv_cleanup_expired now h

theorem shards_applyOp (hash : ByteStr → Fin NUM_SHARDS) (c : FastDNSCache)
    (op : CacheOp) (i : Fin NUM_SHARDS) :
    (c.applyOp hash op).shards i = (c.shards i).applyOp op ∨
      (c.applyOp hash op).shards i = c.shards i := by
  cases op with
  | get now d =>
    by_cases hi : i = hash d
    · subst hi
      left
      simp [FastDNSCache.applyOp, FastDNSCache.get, Shard.applyOp]
    · right
      simp [FastDNSCache.applyOp, FastDNSCache.get, hi]
  | set now d ip ttl =>
    by_cases hi : i = hash d
    · subst hi
      left
      simp [FastDNSCache.applyOp, FastDNSCache.set, Shard.applyOp]
    · right
      simp [FastDNSCache.applyOp, FastDNSCache.set, hi]
  | cleanup now =>
    left
    simp [FastDNSCache.applyOp, FastDNSCache.cleanup_expired, Shard.applyOp]

theorem Inv_run_fold (hash : ByteStr → Fin NUM_SHARDS) (ops : List CacheOp) :
    ∀ c : FastDNSCache, (∀ i, Inv (c.shards i)) →
      ∀ i, Inv ((ops.foldl (FastDNSCache.applyOp hash) c).shards i) := by
  induction ops with
  | nil => exact fun c h => h
  | cons op rest ih =>
    intro c h i
    rw [List.foldl_cons]
    refine ih _ (fun j => ?_) i
    rcases shards_applyOp hash c op j with he | he
    · rw [he]
      exact Inv_applyOp op (h j)
    · rw [he]
      exact h j

theorem Inv_run (hash : ByteStr → Fin NUM_SHARDS) (ops : List CacheOp)
    (i : Fin NUM_SHARDS) : Inv ((FastDNSCache.run hash ops).shards i) :=
  Inv_run_fold hash ops FastDNSCache.empty (fun _ => Inv_empty) i

theorem MAX_pos : 0 < MAX_ENTRIES_PER_SHARD := by decide

theorem evict_lru_length_le (s : Shard) : s.evict_lru.entries.length ≤ s.entries.length := by
  rw [Shard.evict_lru]
  by_cases hcond : MAX_ENTRIES_PER_SHARD ≤ s.entries.length ∧ s.lru_list ≠ []
  · rw [if_pos hcond]
    cases s.lru_list.getLast? with
    | none => exact Nat.le_refl _
    | some w => exact length_eraseKey_le _ _
  · rw [if_neg hcond]

theorem evict_lru_evictions_le (s : Shard) : s.evict_lru.evictions ≤ s.evictions + 1 := by
  rw [Shard.evict_lru]
  by_cases hcond : MAX_ENTRIES_PER_SHARD ≤ s.entries.length ∧ s.lru_list ≠ []
  · rw [if_pos hcond]
    cases s.lru_list.getLast? with
    | none => exact Nat.le_succ _
    | some w => exact Nat.le_refl _
  · rw [if_neg hcond]
    exact Nat.le_succ _

/-- After the eviction step, inserting one key keeps the shard at or below
capacity (this needs the cross-structure invariant: the key at the back of the
recency list really is an entry key). -/
theorem length_setKey_evict_le {t : Shard} (h : Inv t)
    (hlen : t.entries.length ≤ MAX_ENTRIES_PER_SHARD) (d : ByteStr) (v : CacheEntry) :
    (setKey t.evict_lru.entries d v).length ≤ MAX_ENTRIES_PER_SHARD := by
  obtain ⟨ndE, ndM, ndL, hEM, hME, point, hLM⟩ := h
  rw [Shard.evict_lru]
  by_cases hcond : MAX_ENTRIES_PER_SHARD ≤ t.entries.length ∧ t.lru_list ≠ []
  · rw [if_pos hcond]
    cases hlast : t.lru_list.getLast? with
    | none =>
      exact absurd (List.getLast?_eq_none_iff.1 hlast) hcond.2
    | some w =>
      have hwl : t.lru_list[t.lru_list.length - 1]? = some w := by
        rw [← List.getLast?_eq_getElem?]
        exact hlast
      have hwE : w ∈ keysOf t.entries :=
        hME w (hLM w (List.getElem?_mem hwl))
      have hlen2 : (eraseKey t.entries w).length + 1 = t.entries.length :=
        length_eraseKey_of_mem ndE hwE
      by_cases hd : d ∈ keysOf (eraseKey t.entries w)
      · rw [length_setKey_of_mem v hd]
        omega
      · rw [length_setKey_of_not_mem v hd]
        omega
  · rw [if_neg hcond]
    by_cases hfull : MAX_ENTRIES_PER_SHARD ≤ t.entries.length
    · have hl : t.lru_list = [] := by
        by_contra hne
        exact hcond ⟨hfull, hne⟩
      have : t.entries = [] :=
        entries_eq_nil_of_lru_nil ⟨ndE, ndM, ndL, hEM, hME, point, hLM⟩ hl
      rw [this] at hfull
      simp at hfull
      exact absurd hfull (Nat.pos_iff_ne_zero.1 MAX_pos)
    · have hlt : t.entries.length < MAX_ENTRIES_PER_SHARD := Nat.lt_of_not_le hfull
      by_cases hd : d ∈ keysOf t.entries
      · rw [length_setKey_of_mem v hd]
        omega
      · rw [length_setKey_of_not_mem v hd]
        omega

theorem length_set_le {s : Shard} (now : Nat) (d ip : ByteStr) (ttl : Nat) (h : Inv s)
    (hlen : s.entries.length ≤ MAX_ENTRIES_PER_SHARD) :
    (s.set now d ip ttl).entries.length ≤ MAX_ENTRIES_PER_SHARD := by
  simp only [Shard.set]
  rw [touch_lru_entries]
  exact length_setKey_evict_le (Inv_cleanup_expired now h)
    (Nat.le_trans (length_cleanup_le s now) hlen) d _

theorem set_evictions_le (s : Shard) (now : Nat) (d ip : ByteStr) (ttl : Nat) :
    (s.set now d ip ttl).evictions ≤ s.evictions + 1 := by
  simp only [Shard.set]
  rw [(touch_lru_counters _ _).2.2]
  show (s.cleanup_expired now).evict_lru.evictions ≤ s.evictions + 1
  refine Nat.le_trans (evict_lru_evictions_le _) ?_
  rw [(cleanup_counters s now).2.2]

theorem length_get_le (s : Shard) (now : Nat) (d : ByteStr) :
    ((s.get now d).2).entries.length ≤ s.entries.length := by
  cases hfind : lookupKV (s.cleanup_expired now).entries d with
  | some e =>
    by_cases hv : now < e.expiry
    · simp only [Shard.get, hfind, if_pos hv]
      rw [touch_lru_entries]
      show (setKey (s.cleanup_expired now).entries d _).length ≤ s.entries.length
      rw [length_setKey_of_mem _ (mem_keysOf_of_lookup hfind)]
      exact length_cleanup_le s now
    · simp only [Shard.get, hfind, if_neg hv]
      show ((s.cleanup_expired now).removeKey d).entries.length ≤ s.entries.length
      rw [removeKey_entries]
      exact Nat.le_trans (length_eraseKey_le _ _) (length_cleanup_le s now)
  | none =>
    simp only [Shard.get, hfind]
    exact length_cleanup_le s now

theorem length_applyOp_le {s : Shard} (op : CacheOp) (h : Inv s)
    (hl : s.entries.length ≤ MAX_ENTRIES_PER_SHARD) :
    (s.applyOp op).entries.length ≤ MAX_ENTRIES_PER_SHARD := by
  cases op with
  | get now d => exact Nat.le_trans (length_get_le s now d) hl
  | set now d ip ttl => exact length_set_le now d ip ttl h hl
  | cleanup now => exact Nat.le_trans (length_cleanup_le s now) hl

theorem size_run_fold (hash : ByteStr → Fin NUM_SHARDS) (ops : List CacheOp) :
    ∀ c : FastDNSCache,
      (∀ i, Inv (c.shards i) ∧ (c.shards i).entries.length ≤ MAX_ENTRIES_PER_SHARD) →
      ∀ i, ((ops.foldl (FastDNSCache.applyOp hash) c).shards i).entries.length
        ≤ MAX_ENTRIES_PER_SHARD ∧
        Inv ((ops.foldl (FastDNSCache.applyOp hash) c).shards i) := by
  induction ops with
  | nil => exact fun c h i => ⟨(h i).2, (h i).1⟩
  | cons op rest ih =>
    intro c h i
    rw [List.foldl_cons]
    refine ih _ (fun j => ?_) i
    rcases shards_applyOp hash c op j with he | he
    · rw [he]
      exact ⟨Inv_applyOp op (h j).1, length_applyOp_le op (h j).1 (h j).2⟩
    · rw [he]
      exact h j

theorem size_run (hash : ByteStr → Fin NUM_SHARDS) (ops : List CacheOp)
    (i : Fin NUM_SHARDS) :
    ((FastDNSCache.run hash ops).shards i).entries.length ≤ MAX_ENTRIES_PER_SHARD :=
  (size_run_fold hash ops FastDNSCache.empty
    (fun _ => ⟨Inv_empty, by simp [FastDNSCache.empty, Shard.empty]⟩) i).1

theorem lookup_cleanup_fold_some {now : Nat} (L : List (ByteStr × CacheEntry)) :
    ∀ (t : Shard) (k : ByteStr) (e : CacheEntry),
      lookupKV ((L.foldl (fun t p => if p.2.expiry ≤ now then t.removeKey p.1 else t) t).entries)
          k = some e →
      lookupKV t.entries k = some e := by
  induction L with
  | nil => exact fun t k e h => h
  | cons p ps ih =>
    intro t k e h
    rw [List.foldl_cons] at h
    by_cases hp : p.2.expiry ≤ now
    · rw [if_pos hp] at h
      have h2 := ih _ k e h
      rw [removeKey_entries] at h2
      by_cases hk : k = p.1
      · rw [hk, lookup_eraseKey_self] at h2
        exact Option.noConfusion h2
      · rw [lookup_eraseKey_ne _ hk] at h2
        exact h2
    · rw [if_neg hp] at h
      exact ih _ k e h

theorem lookup_fold_none {now : Nat} (L : List (ByteStr × CacheEntry)) (t : Shard)
    (k : ByteStr)
    (h : lookupKV t.entries k = none) :
    lookupKV ((L.foldl (fun t p => if p.2.expiry ≤ now then t.removeKey p.1 else t) t).entries)
      k = none := by
  cases hf : lookupKV ((L.foldl _ t).entries) k with
  | none => rfl
  | some e =>
    rw [lookup_cleanup_fold_some L t k e hf] at h
    exact Option.noConfusion h

theorem lookup_cleanup_fold_none {now : Nat} (L : List (ByteStr × CacheEntry)) :
    ∀ (t : Shard) (k : ByteStr) (e : CacheEntry), (k, e) ∈ L → e.expiry ≤ now →
      lookupKV ((L.foldl (fun t p => if p.2.expiry ≤ now then t.removeKey p.1 else t) t).entries)
        k = none := by
  induction L with
  | nil => intro t k e h; cases h
  | cons p ps ih =>
    intro t k e hmem hexp
    rw [List.foldl_cons]
    rcases List.mem_cons.1 hmem with rfl | hmem
    · rw [if_pos hexp]
      refine lookup_fold_none ps _ k ?_
      rw [removeKey_entries, lookup_eraseKey_self]
    · by_cases hp : p.2.expiry ≤ now
      · rw [if_pos hp]
        exact ih _ k e hmem hexp
      · rw [if_neg hp]
        exact ih _ k e hmem hexp

theorem lookup_cleanup_none {s : Shard} {now : Nat} {k : ByteStr} {e : CacheEntry}
    (hk : lookupKV s.entries k = some e) (hexp : e.expiry ≤ now) :
    lookupKV ((s.cleanup_expired now).entries) k = none := by
  rw [Shard.cleanup_expired]
  exact lookup_cleanup_fold_none s.entries s k e (lookup_mem hk) hexp

theorem lookup_cleanup_some {s : Shard} {now : Nat} {k : ByteStr} {e : CacheEntry}
    (h : lookupKV ((s.cleanup_expired now).entries) k = some e) :
    lookupKV s.entries k = some e ∧ now < e.expiry := by
  have h1 : lookupKV s.entries k = some e := by
    rw [Shard.cleanup_expired] at h
    exact lookup_cleanup_fold_some s.entries s k e h
  refine ⟨h1, ?_⟩
  by_contra hlt
  have hexp : e.expiry ≤ now := Nat.le_of_not_lt hlt
  rw [lookup_cleanup_none h1 hexp] at h
  exact Option.noConfusion h

theorem cleanup_fold_id {now : Nat} (L : List (ByteStr × CacheEntry)) :
    ∀ t : Shard, (∀ p ∈ L, now < p.2.expiry) →
      L.foldl (fun t p => if p.2.expiry ≤ now then t.removeKey p.1 else t) t = t := by
  induction L with
  | nil => exact fun t _ => rfl
  | cons p ps ih =>
    intro t h
    rw [List.foldl_cons, if_neg (Nat.not_le_of_lt (h p (List.mem_cons_self p ps)))]
    exact ih t (fun q hq => h q (List.mem_cons_of_mem p hq))

theorem cleanup_id {s : Shard} {now : Nat} (h : ∀ p ∈ s.entries, now < p.2.expiry) :
    s.cleanup_expired now = s := by
  rw [Shard.cleanup_expired]
  exact cleanup_fold_id s.entries s h

/-- Claim C3: over any shard state, `get` never returns an IPv4 for an entry
whose expiry is less than or equal to the current time; a returned IPv4 always
comes from an entry that was present and valid (`now < expiry`) at the time of
the lookup, and an entry whose expiry has passed is removed and `get` returns
none for it. -/
theorem C3_get_never_returns_stale (s : Shard) (now : Nat) (d : ByteStr) :
    (∀ ip, (s.get now d).1 = some ip →
      ∃ e, lookupKV s.entries d = some e ∧ now < e.expiry ∧ ip = e.ip) ∧
    (∀ e, lookupKV s.entries d = some e → e.expiry ≤ now →
      (s.get now d).1 = none ∧ lookupKV ((s.get now d).2).entries d = none) := by
  cases hfind : lookupKV ((s.cleanup_expired now).entries) d with
  | some e =>
    obtain ⟨horig, hvalid⟩ := lookup_cleanup_some hfind
    by_cases hv : now < e.expiry
    · constructor
      · intro ip hip
        simp only [Shard.get, hfind, if_pos hv] at hip
        exact ⟨e, horig, hvalid, (Option.some.inj hip).symm⟩
      · intro e' he' hexp'
        rw [horig] at he'
        obtain rfl := Option.some.inj he'
        exact absurd hvalid (Nat.not_lt_of_le hexp')
    · exact absurd hvalid hv
  | none =>
    constructor
    · intro ip hip
      simp only [Shard.get, hfind] at hip
      exact Option.noConfusion hip
    · intro e he hexp
      constructor
      · simp only [Shard.get, hfind]
      · simp only [Shard.get, hfind]

/-- A shard holding a single entry for key `6b` that expires at instant 5. -/
def staleShard : Shard :=
  ⟨[([107], ⟨[49, 46, 50, 46, 51, 46, 52], 5, 0⟩)], [[107]], [([107], 0)], 0, 0, 0⟩

/-- Witness for C3 at a concrete input: at `now = 5` the single entry of
`staleShard` has `expiry ≤ now`, so `get` returns none and removes it. -/
theorem C3_get_never_returns_stale_witness :
    (staleShard.get 5 [107]).1 = none ∧
      lookupKV ((staleShard.get 5 [107]).2).entries [107] = none :=
  (C3_get_never_returns_stale staleShard 5 [107]).2
    ⟨[49, 46, 50, 46, 51, 46, 52], 5, 0⟩ (by decide) (by decide)

/-- Claim C4: after any sequence of public cache operations every shard holds at
most `MAX_ENTRIES_PER_SHARD = 512` entries, hence the whole cache holds at most
`CACHE_SIZE = 8192`; moreover a single `set` increments the eviction counter by
at most one. -/
theorem C4_capacity_bound :
    MAX_ENTRIES_PER_SHARD = 512 ∧
    (∀ (hash : ByteStr → Fin NUM_SHARDS) (ops : List CacheOp) (i : Fin NUM_SHARDS),
      ((FastDNSCache.run hash ops).shards i).entries.length ≤ MAX_ENTRIES_PER_SHARD) ∧
    (∀ (hash : ByteStr → Fin NUM_SHARDS) (ops : List CacheOp),
      (∑ i : Fin NUM_SHARDS, ((FastDNSCache.run hash ops).shards i).entries.length)
        ≤ CACHE_SIZE) ∧
    (∀ (s : Shard) (now : Nat) (d ip : ByteStr) (ttl : Nat),
      (s.set now d ip ttl).evictions ≤ s.evictions + 1) := by
  refine ⟨rfl, size_run, fun hash ops => ?_, set_evictions_le⟩
  have h1 : (∑ i : Fin NUM_SHARDS, ((FastDNSCache.run hash ops).shards i).entries.length)
      ≤ ∑ _i : Fin NUM_SHARDS, MAX_ENTRIES_PER_SHARD :=
    Finset.sum_le_sum (fun i _ => size_run hash ops i)
  refine Nat.le_trans h1 ?_
  rw [Finset.sum_const, Finset.card_univ, Fintype.card_fin, smul_eq_mul]
  decide

/-- Claim C5: after any sequence of public cache operations starting from the
empty cache, in every shard the key set of the entries map, the key set of the
LRU index map, and the set of keys in the LRU order list coincide, and the
index maps every key to the position in the order list that holds that key. -/
theorem C5_structures_agree (hash : ByteStr → Fin NUM_SHARDS)
    (ops : List CacheOp) (i : Fin NUM_SHARDS) :
    (∀ k, k ∈ keysOf ((FastDNSCache.run hash ops).shards i).entries ↔
      k ∈ keysOf ((FastDNSCache.run hash ops).shards i).lru_map) ∧
    (∀ k, k ∈ keysOf ((FastDNSCache.run hash ops).shards i).lru_map ↔
      k ∈ ((FastDNSCache.run hash ops).shards i).lru_list) ∧
    (∀ k j, lookupKV ((FastDNSCache.run hash ops).shards i).lru_map k = some j →
      ((FastDNSCache.run hash ops).shards i).lru_list[j]? = some k) := by
  obtain ⟨ndE, ndM, ndL, hEM, hME, point, hLM⟩ := Inv_run hash ops i
  refine ⟨fun k => ⟨hEM k, hME k⟩, fun k => ⟨?_, hLM k⟩,
    fun k j hk => point _ (lookup_mem hk)⟩
  intro hk
  obtain ⟨j, hj⟩ := lookup_isSome_of_mem_keysOf hk
  exact List.getElem?_mem (point _ (lookup_mem hj))

theorem touch_lru_found {s : Shard} {d : ByteStr} {i : Nat}
    (h : lookupKV s.lru_map d = some i) :
    s.touch_lru d = { s with lru_list := d :: s.lru_list.eraseIdx i,
                             lru_map := setKey (shiftUpIdx (shiftDownIdx i s.lru_map)) d 0 } := by
  rw [Shard.touch_lru, h]

theorem touch_lru_notfound {s : Shard} {d : ByteStr}
    (h : lookupKV s.lru_map d = none) :
    s.touch_lru d = { s with lru_list := d :: s.lru_list,
                             lru_map := setKey (shiftUpIdx s.lru_map) d 0 } := by
  rw [Shard.touch_lru, h]

/-- Touching commutes with replacing the entries map (`touch_lru` never reads
the entries map). -/
theorem touch_lru_entries_set (s : Shard) (E : List (ByteStr × CacheEntry)) (d : ByteStr) :
    Shard.touch_lru { s with entries := E } d = { s.touch_lru d with entries := E } := by
  cases h : lookupKV s.lru_map d with
  | some i => simp only [Shard.touch_lru, h]
  | none => simp only [Shard.touch_lru, h]

theorem evict_lru_skip {s : Shard}
    (h : s.entries.length < MAX_ENTRIES_PER_SHARD) : s.evict_lru = s := by
  rw [Shard.evict_lru, if_neg]
  intro hc
  exact absurd hc.1 (Nat.not_le_of_lt h)

/-- Effect of `set` on a shard that is below capacity, holds no expired entry,
and already holds the domain: no eviction, same size, entry overwritten and
moved to the MRU front. -/
theorem set_overwrite {s : Shard} (now : Nat) (d ip : ByteStr) (ttl : Nat)
    (hInv : Inv s)
    (hvalid : ∀ p ∈ s.entries, now < p.2.expiry)
    (hd : d ∈ keysOf s.entries)
    (hcap : s.entries.length < MAX_ENTRIES_PER_SHARD) :
    (s.set now d ip ttl).entries = setKey s.entries d ⟨ip, now + ttl, 0⟩ ∧
    (s.set now d ip ttl).evictions = s.evictions ∧
    (s.set now d ip ttl).hits = s.hits ∧
    (s.set now d ip ttl).misses = s.misses ∧
    (s.set now d ip ttl).entries.length = s.entries.length ∧
    lookupKV (s.set now d ip ttl).entries d = some ⟨ip, now + ttl, 0⟩ ∧
    (∀ k, k ≠ d → lookupKV (s.set now d ip ttl).entries k = lookupKV s.entries k) ∧
    (s.set now d ip ttl).lru_list = d :: s.lru_list.erase d := by
  obtain ⟨ndE, ndM, ndL, hEM, hME, point, hLM⟩ := hInv
  obtain ⟨i, hi⟩ := lookup_isSome_of_mem_keysOf (hEM d hd)
  have hid : s.lru_list[i]? = some d := point _ (lookup_mem hi)
  have herase : s.lru_list.eraseIdx i = s.lru_list.erase d :=
    eraseIdx_eq_erase_of_nodup ndL hid
  simp only [Shard.set, cleanup_id hvalid, evict_lru_skip hcap, touch_lru_entries_set]
  refine ⟨trivial, ?_, ?_, ?_, ?_, ?_, ?_, ?_⟩
  · exact (touch_lru_counters s d).2.2
  · exact (touch_lru_counters s d).1
  · exact (touch_lru_counters s d).2.1
  · exact length_setKey_of_mem _ hd
  · exact lookup_setKey_self _ _ _
  · intro k hk
    exact lookup_setKey_ne _ _ hk
  · rw [touch_lru_found hi, herase]

/-- Effect of `set` on a shard that is below capacity, holds no expired entry,
and does not hold the domain: plain insertion at the MRU front. -/
theorem set_fresh {s : Shard} (now : Nat) (d ip : ByteStr) (ttl : Nat)
    (hInv : Inv s)
    (hvalid : ∀ p ∈ s.entries, now < p.2.expiry)
    (hd : d ∉ keysOf s.entries)
    (hcap : s.entries.length < MAX_ENTRIES_PER_SHARD) :
    (s.set now d ip ttl).entries = (d, ⟨ip, now + ttl, 0⟩) :: s.entries ∧
    (s.set now d ip ttl).lru_list = d :: s.lru_list ∧
    (s.set now d ip ttl).evictions = s.evictions := by
  obtain ⟨ndE, ndM, ndL, hEM, hME, point, hLM⟩ := hInv
  have hdm : lookupKV s.lru_map d = none :=
    (lookupKV_eq_none _ _).2 (fun h => hd (hME d h))
  have hset : setKey s.entries d (⟨ip, now + ttl, 0⟩ : CacheEntry)
      = (d, ⟨ip, now + ttl, 0⟩) :: s.entries := by
    rw [setKey, if_neg hd]
  simp only [Shard.set, cleanup_id hvalid, evict_lru_skip hcap, touch_lru_entries_set]
  refine ⟨hset, ?_, (touch_lru_counters s d).2.2⟩
  rw [touch_lru_notfound hdm]

/-- Effect of `set` on a shard at full capacity that holds no expired entry and
already holds the domain, with some other key at the LRU back: the key at the
back is nonetheless evicted, the eviction counter is incremented and the entry
count shrinks by one. -/
theorem set_overwrite_at_capacity {s : Shard} (now : Nat) (d ip : ByteStr) (ttl : Nat)
    (w : ByteStr) (hInv : Inv s)
    (hvalid : ∀ p ∈ s.entries, now < p.2.expiry)
    (hd : d ∈ keysOf s.entries)
    (hlen : MAX_ENTRIES_PER_SHARD ≤ s.entries.length)
    (hlast : s.lru_list.getLast? = some w)
    (hwd : w ≠ d) :
    (s.set now d ip ttl).evictions = s.evictions + 1 ∧
    (s.set now d ip ttl).entries.length + 1 = s.entries.length := by
  obtain ⟨ndE, ndM, ndL, hEM, hME, point, hLM⟩ := hInv
  have hlne : s.lru_list ≠ [] := by
    intro he
    rw [List.getLast?_eq_none_iff.2 he] at hlast
    exact Option.noConfusion hlast
  have hwl : w ∈ s.lru_list := by
    have hg : s.lru_list[s.lru_list.length - 1]? = some w := by
      rw [← List.getLast?_eq_getElem?]
      exact hlast
    exact List.getElem?_mem hg
  have hwE : w ∈ keysOf s.entries := hME w (hLM w hwl)
  have hev : s.evict_lru =
      { s with
        entries := eraseKey s.entries w,
        lru_map := eraseKey s.lru_map w,
        lru_list := s.lru_list.dropLast,
        evictions := s.evictions + 1 } := by
    rw [Shard.evict_lru, if_pos ⟨hlen, hlne⟩, hlast]
  have hdE : d ∈ keysOf (eraseKey s.entries w) :=
    (mem_keysOf_eraseKey _ _ _).2 ⟨hd, fun he => hwd he.symm⟩
  have hlen2 : (eraseKey s.entries w).length + 1 = s.entries.length :=
    length_eraseKey_of_mem ndE hwE
  simp only [Shard.set, cleanup_id hvalid, hev]
  constructor
  · rw [(touch_lru_counters _ _).2.2]
  · rw [touch_lru_entries]
    show (setKey (eraseKey s.entries w) d _).length + 1 = s.entries.length
    rw [length_setKey_of_mem _ hdE]
    exact hlen2

/-- The two-byte key used to populate a shard with distinct domains. -/
def ckey (n : Nat) : ByteStr := [n / 256, n % 256]

theorem ckey_inj {m n : Nat} (h : ckey m = ckey n) : m = n := by
  simp only [ckey, List.cons.injEq] at h
  omega

/-- A fixed IPv4 payload, the text `8.8.8.8`. -/
def fillIp : ByteStr := [56, 46, 56, 46, 56, 46, 56]

def buildStep (t : Shard) (n : Nat) : Shard := t.set 0 (ckey n) fillIp 300

/-- The shard obtained by `n` successive `set` calls with distinct fresh keys. -/
def buildN (n : Nat) : Shard := (List.range n).foldl buildStep Shard.empty

theorem buildN_succ (n : Nat) : buildN (n + 1) = (buildN n).set 0 (ckey n) fillIp 300 := by
  rw [buildN, List.range_succ, List.foldl_append]
  rfl

theorem Inv_buildN (n : Nat) : Inv (buildN n) := by
  induction n with
  | zero => exact Inv_empty
  | succ n ih =>
    rw [buildN_succ]
    exact Inv_set _ _ _ _ ih

theorem buildN_spec : ∀ n, n ≤ MAX_ENTRIES_PER_SHARD →
    (buildN n).entries.length = n ∧
    (buildN n).lru_list = ((List.range n).map ckey).reverse ∧
    (buildN n).evictions = 0 ∧
    (∀ p ∈ (buildN n).entries, p.2.expiry = 300) ∧
    (∀ p ∈ (buildN n).entries, ∃ j, j < n ∧ p.1 = ckey j) ∧
    (∀ j, j < n → lookupKV (buildN n).entries (ckey j) = some ⟨fillIp, 300, 0⟩) := by
  intro n
  induction n with
  | zero =>
    intro _
    refine ⟨rfl, rfl, rfl, ?_, ?_, ?_⟩
    · intro p hp
      cases hp
    · intro p hp
      cases hp
    · intro j hj
      cases hj
  | succ n ih =>
    intro hn
    have hnM : n ≤ MAX_ENTRIES_PER_SHARD := Nat.le_of_succ_le hn
    obtain ⟨ihlen, ihlru, ihev, ihexp, ihkeys, ihlook⟩ := ih hnM
    have hval : ∀ p ∈ (buildN n).entries, 0 < p.2.expiry := by
      intro p hp
      rw [ihexp p hp]
      decide
    have hfresh : ckey n ∉ keysOf (buildN n).entries := by
      intro hmem
      simp only [keysOf, List.mem_map] at hmem
      obtain ⟨p, hp, hpk⟩ := hmem
      obtain ⟨j, hj, hpj⟩ := ihkeys p hp
      have : n = j := ckey_inj (hpk ▸ hpj)
      omega
    have hcap : (buildN n).entries.length < MAX_ENTRIES_PER_SHARD := by
      rw [ihlen]
      exact Nat.lt_of_lt_of_le (Nat.lt_succ_self n) hn
    obtain ⟨hent, hlst, hevc⟩ :=
      set_fresh 0 (ckey n) fillIp 300 (Inv_buildN n) hval hfresh hcap
    rw [buildN_succ]
    refine ⟨?_, ?_, ?_, ?_, ?_, ?_⟩
    · rw [hent, List.length_cons, ihlen]
    · rw [hlst, ihlru, List.range_succ, List.map_append, List.reverse_append]
      rfl
    · rw [hevc, ihev]
    · intro p hp
      rw [hent] at hp
      rcases List.mem_cons.1 hp with rfl | hp
      · rfl
      · exact ihexp p hp
    · intro p hp
      rw [hent] at hp
      rcases List.mem_cons.1 hp with rfl | hp
      · exact ⟨n, Nat.lt_succ_self n, rfl⟩
      · obtain ⟨j, hj, hpj⟩ := ihkeys p hp
        exact ⟨j, Nat.lt_succ_of_lt hj, hpj⟩
    · intro j hj
      rw [hent]
      rcases Nat.lt_succ_iff_lt_or_eq.1 hj with hj | rfl
      · have hne : ckey n ≠ ckey j := by
          intro he
          have : n = j := ckey_inj he
          omega
        rw [lookupKV, if_neg hne]
        exact ihlook j hj
      · rw [lookupKV, if_pos rfl]

/-- Claim C1 (amended): for a shard satisfying the structural invariant, holding
no expired entry, already holding domain `d`, and holding strictly fewer than
`MAX_ENTRIES_PER_SHARD` entries, `set(d, ip, ttl)` triggers no LRU eviction,
does not change the number of entries and does not increment the eviction
counter; its only effects are replacing the stored ip, refreshing the expiry,
and moving `d` to the MRU front; two consecutive identical calls leave the
entry count unchanged.  (At full capacity the code does evict; see the
counterexample.) -/
theorem C1_overwrite_frame_below_capacity (s : Shard) (now : Nat) (d ip : ByteStr)
    (ttl : Nat)
    (hInv : Inv s)
    (hvalid : ∀ p ∈ s.entries, now < p.2.expiry)
    (hd : d ∈ keysOf s.entries)
    (hcap : s.entries.length < MAX_ENTRIES_PER_SHARD)
    (httl : 0 < ttl) :
    (s.set now d ip ttl).evictions = s.evictions ∧
    (s.set now d ip ttl).entries.length = s.entries.length ∧
    lookupKV (s.set now d ip ttl).entries d = some ⟨ip, now + ttl, 0⟩ ∧
    (∀ k, k ≠ d → lookupKV (s.set now d ip ttl).entries k = lookupKV s.entries k) ∧
    (s.set now d ip ttl).lru_list = d :: s.lru_list.erase d ∧
    ((s.set now d ip ttl).set now d ip ttl).entries.length = s.entries.length := by
  obtain ⟨hent, hev, -, -, hlen, hlook, hlookne, hlru⟩ :=
    set_overwrite now d ip ttl hInv hvalid hd hcap
  have hval2 : ∀ p ∈ (s.set now d ip ttl).entries, now < p.2.expiry := by
    intro p hp
    rw [hent] at hp
    rcases mem_setKey_elim hp with rfl | ⟨hp, -⟩
    · show now < now + ttl
      omega
    · exact hvalid p hp
  have hd2 : d ∈ keysOf (s.set now d ip ttl).entries := mem_keysOf_of_lookup hlook
  have hcap2 : (s.set now d ip ttl).entries.length < MAX_ENTRIES_PER_SHARD := by
    rw [hlen]
    exact hcap
  obtain ⟨-, -, -, -, hlen2, -, -, -⟩ :=
    set_overwrite now d ip ttl (Inv_set now d ip ttl hInv) hval2 hd2 hcap2
  exact ⟨hev, hlen, hlook, hlookne, hlru, hlen2.trans hlen⟩

/-- Witness for C1 at a concrete reachable input: a one-entry shard, overwritten
twice. -/
theorem C1_overwrite_frame_below_capacity_witness :
    ((buildN 1).set 0 (ckey 0) fillIp 7).evictions = (buildN 1).evictions ∧
      ((buildN 1).set 0 (ckey 0) fillIp 7).entries.length = (buildN 1).entries.length ∧
      (((buildN 1).set 0 (ckey 0) fillIp 7).set 0 (ckey 0) fillIp 7).entries.length
        = (buildN 1).entries.length := by
  obtain ⟨h1, h2, -, -, -, h6⟩ :=
    C1_overwrite_frame_below_capacity (buildN 1) 0 (ckey 0) fillIp 7
      (by decide) (by decide) (by decide) (by decide) (by decide)
  exact ⟨h1, h2, h6⟩

/-- Counterexample to claim C1 as stated: in a shard at full capacity
(512 entries, reachable by 512 fresh `set` calls), overwriting the existing key
`ckey 1` does trigger an LRU eviction — the eviction counter rises from 0 to 1
and the entry count drops from 512 to 511, because `set` runs `evict_lru`
before checking whether the key already exists. -/
theorem C1_counterexample :
    lookupKV (buildN 512).entries (ckey 1) = some ⟨fillIp, 300, 0⟩ ∧
    (buildN 512).entries.length = 512 ∧
    (buildN 512).evictions = 0 ∧
    ((buildN 512).set 0 (ckey 1) fillIp 300).evictions = 1 ∧
    ((buildN 512).set 0 (ckey 1) fillIp 300).entries.length = 511 := by
  have hM : (512 : Nat) ≤ MAX_ENTRIES_PER_SHARD := by decide
  obtain ⟨hlen, hlru, hev, hexp, -, hlook⟩ := buildN_spec 512 hM
  have hval : ∀ p ∈ (buildN 512).entries, 0 < p.2.expiry := by
    intro p hp
    rw [hexp p hp]
    decide
  have hlook1 : lookupKV (buildN 512).entries (ckey 1) = some ⟨fillIp, 300, 0⟩ :=
    hlook 1 (by decide)
  have hlast : (buildN 512).lru_list.getLast? = some (ckey 0) := by
    rw [hlru, List.getLast?_reverse, List.head?_map, List.head?_eq_getElem?,
      List.getElem?_range (by decide : (0 : Nat) < 512)]
    rfl
  obtain ⟨hev', hlen'⟩ :=
    set_overwrite_at_capacity 0 (ckey 1) fillIp 300 (ckey 0) (Inv_buildN 512) hval
      (mem_keysOf_of_lookup hlook1) (by rw [hlen]; decide) hlast (by decide)
  refine ⟨hlook1, hlen, hev, ?_, ?_⟩
  · rw [hev', hev]
  · omega

/-- Loop state of `DNSServer::parse_domain_name`: the read cursor, the name
accumulated so far (labels joined with a dot byte 46), the `jumped` flag and
the saved return cursor `original_offset`. -/
structure PState where
  offset : Nat
  res : ByteStr
  jumped : Bool
  orig : Nat
deriving DecidableEq, Repr

/-- Result of one loop iteration: either the loop finishes (`ok := false` for
the mid-loop `return ""` on an overrunning label, which skips the cursor
restore), or it continues; a pointer iteration is tagged `isPtr := true`. -/
inductive StepR where
  | done (ok : Bool) (res : ByteStr) (off : Nat)
  | next (isPtr : Bool) (st : PState)
deriving DecidableEq, Repr

/-- One iteration of the `while (offset < len)` loop of `parse_domain_name`,
together with the list of buffer indices the iteration reads.  Buffer bytes are
values below 256 (`uint8_t`), so `(label_len & 0xC0) == 0xC0` is `192 ≤ b`,
`label_len & 0x3F` is `b % 64`, and `x << 8 | lo` is `x * 256 + lo`.  Note the
pointer branch reads `data[offset + 1]` without any bounds check, exactly as
the source does; the model returns byte 0 for an out-of-bounds read and
records the index. -/
def pstep (data : ByteStr) (st : PState) : StepR × List Nat :=
  if st.offset < data.length then
    let b := data.getD st.offset 0
    if b = 0 then
      (.done true st.res (if st.jumped then st.orig else st.offset + 1), [st.offset])
    else if 192 ≤ b then
      (.next true
        { offset := (b % 64) * 256 + data.getD (st.offset + 1) 0,
          res := st.res,
          jumped := true,
          orig := if st.jumped then st.orig else st.offset + 2 },
       [st.offset, st.offset + 1])
    else if data.length < st.offset + 1 + b then
      (.done false [] st.offset, [st.offset])
    else
      (.next false
        { offset := st.offset + 1 + b,
          res := (if st.res = [] then [] else st.res ++ [46])
            ++ (data.drop (st.offset + 1)).take b,
          jumped := st.jumped,
          orig := st.orig },
       st.offset :: (List.range b).map (fun j => st.offset + 1 + j))
  else
    (.done true st.res (if st.jumped then st.orig else st.offset), [])

/-- Fuel-indexed iteration of the loop; `none` means the loop has not finished
within `fuel` iterations. -/
def parseGo (data : ByteStr) : Nat → PState → Option (Bool × ByteStr × Nat)
  | 0, _ => none
  | fuel + 1, st =>
    match (pstep data st).1 with
    | .done ok r o => some (ok, r, o)
    | .next _ st' => parseGo data fuel st'

def initPState (off : Nat) : PState := ⟨off, [], false, off⟩

/-- `DNSServer::parse_domain_name` starting at `off`; on `some (ok, name, off')`
the decoder returned `name` leaving the cursor at `off'` (`ok = false` marks
the `return ""` path for a label overrunning the buffer). -/
def parse_domain_name (data : ByteStr) (fuel off : Nat) : Option (Bool × ByteStr × Nat) :=
  parseGo data fuel (initPState off)

/-- All buffer indices the decoder reads, in order. -/
def parseReads (data : ByteStr) : Nat → PState → List Nat
  | 0, _ => []
  | fuel + 1, st =>
    match pstep data st with
    | (.done _ _ _, rs) => rs
    | (.next _ st', rs) => rs ++ parseReads data fuel st'

/-- Buffer position of the first compression pointer the decoder processes. -/
def firstPtr (data : ByteStr) : Nat → PState → Option Nat
  | 0, _ => none
  | fuel + 1, st =>
    match (pstep data st).1 with
    | .done _ _ _ => none
    | .next true _ => some st.offset
    | .next false st' => firstPtr data fuel st'

theorem parseGo_succ (data : ByteStr) (fuel : Nat) (st : PState) :
    parseGo data (fuel + 1) st
      = match (pstep data st).1 with
        | .done ok r o => some (ok, r, o)
        | .next _ st' => parseGo data fuel st' := rfl

theorem firstPtr_succ (data : ByteStr) (fuel : Nat) (st : PState) :
    firstPtr data (fuel + 1) st
      = match (pstep data st).1 with
        | .done _ _ _ => none
        | .next true _ => some st.offset
        | .next false st' => firstPtr data fuel st' := rfl

theorem pstep_out {data : ByteStr} {st : PState} (hge : data.length ≤ st.offset) :
    (pstep data st).1
      = .done true st.res (if st.jumped then st.orig else st.offset) := by
  rw [pstep, if_neg (Nat.not_lt_of_le hge)]

theorem pstep_zero {data : ByteStr} {st : PState} (hlt : st.offset < data.length)
    (hb : data.getD st.offset 0 = 0) :
    (pstep data st).1
      = .done true st.res (if st.jumped then st.orig else st.offset + 1) := by
  rw [pstep, if_pos hlt, hb]
  simp

theorem pstep_ptr {data : ByteStr} {st : PState} (hlt : st.offset < data.length)
    (hb : 192 ≤ data.getD st.offset 0) :
    (pstep data st).1
      = .next true
          { offset := (data.getD st.offset 0 % 64) * 256 + data.getD (st.offset + 1) 0,
            res := st.res, jumped := true,
            orig := if st.jumped then st.orig else st.offset + 2 } := by
  have hb0 : data.getD st.offset 0 ≠ 0 := by omega
  rw [pstep, if_pos hlt, if_neg hb0, if_pos hb]

theorem pstep_label {data : ByteStr} {st : PState} (hlt : st.offset < data.length)
    (hb0 : data.getD st.offset 0 ≠ 0) (hbp : data.getD st.offset 0 < 192)
    (hfit : st.offset + 1 + data.getD st.offset 0 ≤ data.length) :
    (pstep data st).1
      = .next false
          { offset := st.offset + 1 + data.getD st.offset 0,
            res := (if st.res = [] then [] else st.res ++ [46])
              ++ (data.drop (st.offset + 1)).take (data.getD st.offset 0),
            jumped := st.jumped, orig := st.orig } := by
  rw [pstep, if_pos hlt, if_neg hb0, if_neg (Nat.not_le_of_lt hbp),
    if_neg (Nat.not_lt_of_le hfit)]

theorem pstep_fail {data : ByteStr} {st : PState} (hlt : st.offset < data.length)
    (hb0 : data.getD st.offset 0 ≠ 0) (hbp : data.getD st.offset 0 < 192)
    (hnofit : data.length < st.offset + 1 + data.getD st.offset 0) :
    (pstep data st).1 = .done false [] st.offset := by
  rw [pstep, if_pos hlt, if_neg hb0, if_neg (Nat.not_le_of_lt hbp), if_pos hnofit]

/-- Claim C9 (divergence witness): on the two-byte buffer `C0 00` — a
compression pointer whose target is its own position — the decoder never
finishes, whatever the iteration budget: the loop revisits offset 0 forever.
The C++ `while` loop therefore runs forever on this datagram. -/
theorem C9_cycle_never_terminates : ∀ fuel, parse_domain_name [192, 0] fuel 0 = none := by
  have hfix : ∀ fuel, parseGo [192, 0] fuel ⟨0, [], true, 2⟩ = none := by
    intro fuel
    induction fuel with
    | zero => rfl
    | succ n ih => exact ih
  intro fuel
  cases fuel with
  | zero => rfl
  | succ n => exact hfix n

/-- Claim C10 (out-of-bounds witness): on the one-byte buffer `C0` the decoder
reads index 0 and then index 1 — one past the end of the buffer — because the
pointer branch reads `data[offset + 1]` without a bounds check. -/
theorem C10_reads_past_buffer :
    parseReads [192] 1 (initPState 0) = [0, 1] ∧
      ¬(∀ i ∈ parseReads [192] 1 (initPState 0), i < ([192] : ByteStr).length) := by
  decide

theorem pstep_done_jumped {data : ByteStr} {st : PState} {ok : Bool} {r : ByteStr}
    {o : Nat} (h : (pstep data st).1 = .done ok r o) (hj : st.jumped = true)
    (hok : ok = true) : o = st.orig := by
  by_cases hlt : st.offset < data.length
  · by_cases hb : data.getD st.offset 0 = 0
    · rw [pstep_zero hlt hb, hj, if_pos rfl] at h
      exact (StepR.done.inj h).2.2.symm
    · by_cases hp : 192 ≤ data.getD st.offset 0
      · rw [pstep_ptr hlt hp] at h
        exact absurd h (by simp)
      · by_cases hfit : st.offset + 1 + data.getD st.offset 0 ≤ data.length
        · rw [pstep_label hlt hb (by omega) hfit] at h
          exact absurd h (by simp)
        · rw [pstep_fail hlt hb (by omega) (by omega)] at h
          obtain ⟨hok', -, -⟩ := StepR.done.inj h
          rw [← hok'] at hok
          exact absurd hok (by decide)
  · rw [pstep_out (Nat.le_of_not_lt hlt), hj, if_pos rfl] at h
    exact (StepR.done.inj h).2.2.symm

theorem pstep_next_jumped {data : ByteStr} {st : PState} {c : Bool} {st' : PState}
    (h : (pstep data st).1 = .next c st') (hj : st.jumped = true) :
    st'.jumped = true ∧ st'.orig = st.orig := by
  by_cases hlt : st.offset < data.length
  · by_cases hb : data.getD st.offset 0 = 0
    · rw [pstep_zero hlt hb] at h
      exact absurd h (by simp)
    · by_cases hp : 192 ≤ data.getD st.offset 0
      · rw [pstep_ptr hlt hp] at h
        obtain ⟨-, hst⟩ := StepR.next.inj h
        rw [← hst, hj]
        exact ⟨rfl, by rw [if_pos rfl]⟩
      · by_cases hfit : st.offset + 1 + data.getD st.offset 0 ≤ data.length
        · rw [pstep_label hlt hb (by omega) hfit] at h
          obtain ⟨-, hst⟩ := StepR.next.inj h
          rw [← hst]
          exact ⟨hj, rfl⟩
        · rw [pstep_fail hlt hb (by omega) (by omega)] at h
          exact absurd h (by simp)
  · rw [pstep_out (Nat.le_of_not_lt hlt)] at h
    exact absurd h (by simp)

theorem pstep_next_ptr {data : ByteStr} {st : PState} {st' : PState}
    (h : (pstep data st).1 = .next true st') (hj : st.jumped = false) :
    st'.jumped = true ∧ st'.orig = st.offset + 2 := by
  by_cases hlt : st.offset < data.length
  · by_cases hb : data.getD st.offset 0 = 0
    · rw [pstep_zero hlt hb] at h
      exact absurd h (by simp)
    · by_cases hp : 192 ≤ data.getD st.offset 0
      · rw [pstep_ptr hlt hp] at h
        obtain ⟨-, hst⟩ := StepR.next.inj h
        rw [← hst, hj]
        exact ⟨rfl, by rw [if_neg (by decide)]⟩
      · by_cases hfit : st.offset + 1 + data.getD st.offset 0 ≤ data.length
        · rw [pstep_label hlt hb (by omega) hfit] at h
          exact absurd (StepR.next.inj h).1 (by decide)
        · rw [pstep_fail hlt hb (by omega) (by omega)] at h
          exact absurd h (by simp)
  · rw [pstep_out (Nat.le_of_not_lt hlt)] at h
    exact absurd h (by simp)

theorem pstep_next_label {data : ByteStr} {st : PState} {st' : PState}
    (h : (pstep data st).1 = .next false st') : st'.jumped = st.jumped := by
  by_cases hlt : st.offset < data.length
  · by_cases hb : data.getD st.offset 0 = 0
    · rw [pstep_zero hlt hb] at h
      exact absurd h (by simp)
    · by_cases hp : 192 ≤ data.getD st.offset 0
      · rw [pstep_ptr hlt hp] at h
        exact absurd (StepR.next.inj h).1 (by decide)
      · by_cases hfit : st.offset + 1 + data.getD st.offset 0 ≤ data.length
        · rw [pstep_label hlt hb (by omega) hfit] at h
          obtain ⟨-, hst⟩ := StepR.next.inj h
          rw [← hst]
        · rw [pstep_fail hlt hb (by omega) (by omega)] at h
          exact absurd h (by simp)
  · rw [pstep_out (Nat.le_of_not_lt hlt)] at h
    exact absurd h (by simp)

/-- Once the decoder has jumped, the saved cursor is never changed, and every
successful exit restores the cursor to it. -/
theorem parseGo_jumped (data : ByteStr) :
    ∀ (fuel : Nat) (st : PState) (ok : Bool) (r : ByteStr) (o : Nat),
      st.jumped = true → parseGo data fuel st = some (ok, r, o) → ok = true →
      o = st.orig := by
  intro fuel
  induction fuel with
  | zero =>
    intro st ok r o _ hgo _
    exact Option.noConfusion hgo
  | succ n ih =>
    intro st ok r o hj hgo hok
    cases hstep : (pstep data st).1 with
    | done ok' r' o' =>
      simp only [parseGo_succ, hstep, Option.some.injEq, Prod.mk.injEq] at hgo
      obtain ⟨h1, -, h3⟩ := hgo
      rw [← h3]
      exact pstep_done_jumped hstep hj (h1.trans hok)
    | next c st' =>
      simp only [parseGo_succ, hstep] at hgo
      obtain ⟨hj', ho'⟩ := pstep_next_jumped hstep hj
      rw [← ho']
      exact ih st' ok r o hj' hgo hok

theorem parseGo_firstPtr (data : ByteStr) :
    ∀ (fuel : Nat) (st : PState) (p : Nat) (ok : Bool) (r : ByteStr) (o : Nat),
      st.jumped = false → firstPtr data fuel st = some p →
      parseGo data fuel st = some (ok, r, o) → ok = true → o = p + 2 := by
  intro fuel
  induction fuel with
  | zero =>
    intro st p ok r o _ hp _ _
    exact Option.noConfusion hp
  | succ n ih =>
    intro st p ok r o hj hp hgo hok
    cases hstep : (pstep data st).1 with
    | done ok' r' o' =>
      simp only [firstPtr_succ, hstep] at hp
      exact Option.noConfusion hp
    | next c st' =>
      cases c with
      | true =>
        simp only [firstPtr_succ, hstep, Option.some.injEq] at hp
        simp only [parseGo_succ, hstep] at hgo
        obtain ⟨hj', ho'⟩ := pstep_next_ptr hstep hj
        rw [← hp, ← ho']
        exact parseGo_jumped data n st' ok r o hj' hgo hok
      | false =>
        simp only [firstPtr_succ, hstep] at hp
        simp only [parseGo_succ, hstep] at hgo
        have hj' : st'.jumped = false := (pstep_next_label hstep).trans hj
        exact ih st' p ok r o hj' hp hgo hok

/-- Claim C7 (amended): whenever the name decoder processes at least one
compression pointer, the position recorded for the cursor restore is the octet
right after the FIRST two-octet pointer encountered, regardless of the jump
target and of any further pointers; on every exit of the loop other than the
mid-loop `return ""` for an overrunning label, the final cursor equals that
position.  (On the `return ""` path the cursor is not restored; see the
counterexample.) -/
theorem C7_cursor_after_first_pointer (data : ByteStr) (fuel off p : Nat)
    (ok : Bool) (r : ByteStr) (o : Nat)
    (hp : firstPtr data fuel (initPState off) = some p)
    (hgo : parse_domain_name data fuel off = some (ok, r, o))
    (hok : ok = true) :
    o = p + 2 :=
  parseGo_firstPtr data fuel (initPState off) p ok r o rfl hp hgo hok

/-- Witness for C7 at a concrete input: buffer `C0 02 00`, a pointer at
position 0 targeting the empty name at position 2; the decoder finishes with
the cursor at 2 = 0 + 2. -/
theorem C7_cursor_after_first_pointer_witness :
    firstPtr [192, 2, 0] 3 (initPState 0) = some 0 ∧
      parse_domain_name [192, 2, 0] 3 0 = some (true, [], 2) ∧ (2 : Nat) = 0 + 2 :=
  ⟨by decide, by decide,
    C7_cursor_after_first_pointer [192, 2, 0] 3 0 0 true [] 2 (by decide) (by decide) rfl⟩

/-- Counterexample to claim C7 as stated: on buffer `C0 03 00 09` the first
(and only) pointer sits at position 0, so the claim requires the final cursor
to be 2; but the jump target 3 holds label length 9, which overruns the
buffer, so the decoder takes the mid-loop `return ""` path, which skips the
cursor restore and leaves the cursor at 3. -/
theorem C7_counterexample :
    firstPtr [192, 3, 0, 9] 5 (initPState 0) = some 0 ∧
      parse_domain_name [192, 3, 0, 9] 5 0 = some (false, [], 3) ∧ (3 : Nat) ≠ 0 + 2 := by
  decide

/-- `std::getline(iss, label, '.')` loop of `encode_domain_name`: `cur` holds
the reversed bytes of the label being read.  At end of stream a started
`getline` still yields its label; a fresh `getline` at end of stream fails and
the loop stops, so a trailing dot produces no empty final label. -/
def glgo : ByteStr → ByteStr → List ByteStr
  | cur, [] => [cur.reverse]
  | cur, c :: cs =>
    if c = 46 then
      cur.reverse :: (match cs with | [] => [] | _ :: _ => glgo [] cs)
    else glgo (c :: cur) cs

/-- The labels `while (getline(iss, label, '.'))` produces for a domain. -/
def getlines : ByteStr → List ByteStr
  | [] => []
  | c :: cs => glgo [] (c :: cs)

/-- `DNSServer::encode_domain_name` (the bytes it appends to the buffer):
each label preceded by its length truncated to `uint8_t`, then a 0 octet. -/
def encode_domain_name (domain : ByteStr) : ByteStr :=
  ((getlines domain).foldl (fun buf label => buf ++ [label.length % 256] ++ label) []) ++ [0]

/-- The 16-bit big-endian read `ntohs(*(uint16_t*)(data + off))` performs. -/
def read16 (b : ByteStr) (off : Nat) : Nat := 256 * b.getD off 0 + b.getD (off + 1) 0

/-- The two bytes `htons` lays out for a 16-bit value. -/
def be16 (n : Nat) : ByteStr := [n / 256 % 256, n % 256]

/-- `DNSServer::parse_dns_question` on a stand-alone question buffer: decode
the name from offset 0, reject an empty name or a truncated fixed part, then
read `qtype` and `qclass`. -/
def decode_question (b : ByteStr) : Option (ByteStr × Nat × Nat) :=
  match parse_domain_name b (b.length + 1) 0 with
  | none => none
  | some (_, qname, off) =>
    if qname = [] then none
    else if off + 4 ≤ b.length then some (qname, read16 b off, read16 b (off + 2))
    else none

/-- Question re-encoding: the name followed by `qtype` and `qclass` written
with `htons`, as `build_dns_response` lays out its question section. -/
def encode_question (qname : ByteStr) (qtype qclass : Nat) : ByteStr :=
  encode_domain_name qname ++ be16 qtype ++ be16 qclass

/-- Wire form of an uncompressed domain name. -/
def wireName (labels : List ByteStr) : ByteStr :=
  labels.foldr (fun l acc => (l.length :: l) ++ acc) [0]

/-- Wire form of an uncompressed question. -/
def wireQuestion (labels : List ByteStr) (qtype qclass : Nat) : ByteStr :=
  wireName labels ++ be16 qtype ++ be16 qclass

/-- Well-formedness of the labels of an uncompressed question buffer:
each label is nonempty, at most 63 octets, and contains no dot octet. -/
def GoodLabels (labels : List ByteStr) : Prop :=
  ∀ l ∈ labels, l ≠ [] ∧ l.length ≤ 63 ∧ 46 ∉ l

instance GoodLabelsDecidable (labels : List ByteStr) : Decidable (GoodLabels labels) := by
  unfold GoodLabels
  infer_instance

/-- How `parse_domain_name` accumulates one decoded label onto the name. -/
def joinD (acc l : ByteStr) : ByteStr := (if acc = [] then [] else acc ++ [46]) ++ l

/-- `.l₁.l₂...` — the dot-joined tail of a label list. -/
def dotTail : List ByteStr → ByteStr
  | [] => []
  | l :: ls => 46 :: (l ++ dotTail ls)

/-- The presentation form `l₁.l₂...` of a label list. -/
def dotJoin : List ByteStr → ByteStr
  | [] => []
  | l :: ls => l ++ dotTail ls

theorem getD_append_right (front t : ByteStr) (j : Nat) :
    (front ++ t).getD (front.length + j) 0 = t.getD j 0 := by
  rw [List.getD_eq_getElem?_getD, List.getD_eq_getElem?_getD,
    List.getElem?_append_right (Nat.le_add_right _ _)]
  have h : front.length + j - front.length = j := by omega
  rw [h]

theorem parseGo_next {data : ByteStr} {st st' : PState} {c : Bool} {n : Nat}
    (h : (pstep data st).1 = .next c st') :
    parseGo data (n + 1) st = parseGo data n st' := by
  rw [parseGo_succ, h]

theorem parseGo_done {data : ByteStr} {st : PState} {ok : Bool} {r : ByteStr}
    {o n : Nat} (h : (pstep data st).1 = .done ok r o) :
    parseGo data (n + 1) st = some (ok, r, o) := by
  rw [parseGo_succ, h]

/-- Decoding an uncompressed wire-format name embedded after `front`:
the loop consumes the labels one by one, joining them with dots, stops at the
terminating 0 octet, and leaves the cursor right after it (or at the saved
cursor when a jump happened earlier). -/
theorem parseGo_wireName :
    ∀ (labels : List ByteStr) (front rest acc : ByteStr) (j : Bool) (og fuel : Nat),
      GoodLabels labels → labels.length + 1 ≤ fuel →
      parseGo (front ++ (wireName labels ++ rest)) fuel ⟨front.length, acc, j, og⟩
        = some (true, labels.foldl joinD acc,
            if j then og else front.length + (wireName labels).length) := by
  intro labels
  induction labels with
  | nil =>
    intro front rest acc j og fuel _ hfuel
    cases fuel with
    | zero => omega
    | succ n =>
      have hb : (front ++ (wireName [] ++ rest) : ByteStr).getD front.length 0 = 0 := by
        have h0 := getD_append_right front (wireName [] ++ rest) 0
        simpa [wireName] using h0
      have hlt : front.length < (front ++ (wireName [] ++ rest) : ByteStr).length := by
        simp [wireName, List.length_append]
      rw [parseGo_done (pstep_zero hlt hb)]
      rfl
  | cons l ls ih =>
    intro front rest acc j og fuel hgood hfuel
    obtain ⟨hlne, hllen, -⟩ := hgood l (List.mem_cons_self l ls)
    have hgood' : GoodLabels ls := fun x hx => hgood x (List.mem_cons_of_mem l hx)
    have hlpos : 0 < l.length := List.length_pos.2 hlne
    cases fuel with
    | zero =>
      exact absurd hfuel (by omega)
    | succ n =>
      have hwl : wireName (l :: ls) = (l.length :: l) ++ wireName ls := rfl
      have hshape : front ++ (wireName (l :: ls) ++ rest)
          = front ++ (l.length :: (l ++ (wireName ls ++ rest))) := by
        rw [hwl]
        simp [List.append_assoc]
      rw [hshape]
      have hb : (front ++ (l.length :: (l ++ (wireName ls ++ rest))) : ByteStr).getD
          front.length 0 = l.length := by
        have h0 := getD_append_right front (l.length :: (l ++ (wireName ls ++ rest))) 0
        simpa using h0
      have hlt : front.length
          < (front ++ (l.length :: (l ++ (wireName ls ++ rest))) : ByteStr).length := by
        simp [List.length_append]
      have hb0 : (front ++ (l.length :: (l ++ (wireName ls ++ rest))) : ByteStr).getD
          front.length 0 ≠ 0 := by
        rw [hb]
        omega
      have hbp : (front ++ (l.length :: (l ++ (wireName ls ++ rest))) : ByteStr).getD
          front.length 0 < 192 := by
        rw [hb]
        omega
      have hfit : front.length + 1
          + (front ++ (l.length :: (l ++ (wireName ls ++ rest))) : ByteStr).getD
              front.length 0
          ≤ (front ++ (l.length :: (l ++ (wireName ls ++ rest))) : ByteStr).length := by
        rw [hb]
        simp [List.length_append]
        omega
      have hdrop : ((front ++ (l.length :: (l ++ (wireName ls ++ rest))) : ByteStr).drop
          (front.length + 1)) = l ++ (wireName ls ++ rest) := by
        have hre : front ++ (l.length :: (l ++ (wireName ls ++ rest)))
            = (front ++ [l.length]) ++ (l ++ (wireName ls ++ rest)) := by
          simp [List.append_assoc]
        have hfl : front.length + 1 = (front ++ [l.length] : ByteStr).length := by
          simp
        rw [hre, hfl, List.drop_left]
      have hre2 : front ++ (l.length :: (l ++ (wireName ls ++ rest)))
          = (front ++ (l.length :: l)) ++ (wireName ls ++ rest) := by
        simp [List.append_assoc]
      have hfl2 : front.length + 1 + l.length = (front ++ (l.length :: l) : ByteStr).length := by
        simp [List.length_append]
        omega
      have hih := ih (front ++ (l.length :: l)) rest (joinD acc l) j og n hgood'
        (by simp only [List.length_cons] at hfuel; omega)
      rw [parseGo_next (pstep_label hlt hb0 hbp hfit), hb, hdrop, List.take_left]
      dsimp only
      rw [show (if acc = [] then [] else acc ++ [46]) ++ l = joinD acc l from rfl]
      rw [hfl2, hre2, hih, List.foldl_cons]
      cases j with
      | true => rfl
      | false =>
        have hlen : (front ++ (l.length :: l) : ByteStr).length + (wireName ls).length
            = front.length + (wireName (l :: ls)).length := by
          rw [hwl]
          simp [List.length_append]
          omega
        rw [if_neg (by decide), if_neg (by decide), hlen]

theorem foldl_joinD_ne (ls : List ByteStr) :
    ∀ acc : ByteStr, acc ≠ [] → ls.foldl joinD acc = acc ++ dotTail ls := by
  induction ls with
  | nil =>
    intro acc _
    simp [dotTail]
  | cons l ls ih =>
    intro acc hacc
    rw [List.foldl_cons]
    have hj : joinD acc l = acc ++ (46 :: l) := by
      rw [joinD, if_neg hacc]
      simp
    rw [hj, ih _ (by simp), dotTail]
    simp

theorem foldl_joinD_nil (labels : List ByteStr) (h : ∀ x ∈ labels, x ≠ []) :
    labels.foldl joinD [] = dotJoin labels := by
  cases labels with
  | nil => rfl
  | cons l ls =>
    rw [List.foldl_cons]
    have hj : joinD [] l = l := by
      rw [joinD, if_pos rfl]
      rfl
    rw [hj, foldl_joinD_ne ls l (h l (List.mem_cons_self l ls)), dotJoin]

theorem glgo_append : ∀ l : ByteStr, 46 ∉ l →
    ∀ cur rest : ByteStr, glgo cur (l ++ rest) = glgo (l.reverse ++ cur) rest := by
  intro l
  induction l with
  | nil =>
    intro _ cur rest
    simp
  | cons c cs ih =>
    intro h46 cur rest
    have hc : c ≠ 46 := fun he => h46 (he ▸ List.mem_cons_self c cs)
    have h46' : 46 ∉ cs := fun h => h46 (List.mem_cons_of_mem c h)
    rw [List.cons_append]
    simp only [glgo, if_neg hc]
    rw [ih h46' (c :: cur) rest, List.reverse_cons]
    simp [List.append_assoc]

theorem glgo_dot (cur : ByteStr) (c : Nat) (cs : ByteStr) :
    glgo cur (46 :: (c :: cs)) = cur.reverse :: glgo [] (c :: cs) := by
  rw [glgo, if_pos rfl]

theorem glgo_dotTail : ∀ ls : List ByteStr, (∀ x ∈ ls, x ≠ [] ∧ 46 ∉ x) →
    ∀ r : ByteStr, glgo r (dotTail ls) = r.reverse :: ls := by
  intro ls
  induction ls with
  | nil =>
    intro _ r
    rfl
  | cons l ls ih =>
    intro h r
    obtain ⟨hlne, hl46⟩ := h l (List.mem_cons_self l ls)
    have h' : ∀ x ∈ ls, x ≠ [] ∧ 46 ∉ x := fun x hx => h x (List.mem_cons_of_mem l hx)
    cases l with
    | nil => exact absurd rfl hlne
    | cons c cs =>
      rw [dotTail, List.cons_append, glgo_dot, ← List.cons_append,
        glgo_append (c :: cs) hl46 [] (dotTail ls), ih h' ((c :: cs).reverse ++ [])]
      simp

theorem getlines_dotJoin (labels : List ByteStr)
    (h : ∀ x ∈ labels, x ≠ [] ∧ 46 ∉ x) :
    getlines (dotJoin labels) = labels := by
  cases labels with
  | nil => rfl
  | cons l ls =>
    obtain ⟨hlne, hl46⟩ := h l (List.mem_cons_self l ls)
    have h' : ∀ x ∈ ls, x ≠ [] ∧ 46 ∉ x := fun x hx => h x (List.mem_cons_of_mem l hx)
    cases l with
    | nil => exact absurd rfl hlne
    | cons c cs =>
      rw [dotJoin, List.cons_append, getlines, ← List.cons_append,
        glgo_append (c :: cs) hl46 [] (dotTail ls), glgo_dotTail ls h' ((c :: cs).reverse ++ [])]
      simp

theorem foldl_encode (ls : List ByteStr) (h : ∀ x ∈ ls, x.length ≤ 63) :
    ∀ buf : ByteStr,
      (ls.foldl (fun buf label => buf ++ [label.length % 256] ++ label) buf) ++ [0]
        = buf ++ wireName ls := by
  induction ls with
  | nil =>
    intro buf
    rfl
  | cons l ls ih =>
    intro buf
    rw [List.foldl_cons, ih (fun x hx => h x (List.mem_cons_of_mem _ hx))]
    have hlen : l.length % 256 = l.length :=
      Nat.mod_eq_of_lt (by have := h l (List.mem_cons_self l ls); omega)
    rw [hlen]
    show buf ++ [l.length] ++ l ++ wireName ls = buf ++ ((l.length :: l) ++ wireName ls)
    simp [List.append_assoc]

theorem encode_domain_name_dotJoin (labels : List ByteStr) (h : GoodLabels labels) :
    encode_domain_name (dotJoin labels) = wireName labels := by
  rw [encode_domain_name,
    getlines_dotJoin labels (fun x hx => ⟨(h x hx).1, (h x hx).2.2⟩)]
  have he := foldl_encode labels (fun x hx => (h x hx).2.1) []
  simpa using he

theorem wireName_len_ge (ls : List ByteStr) : ls.length ≤ (wireName ls).length := by
  induction ls with
  | nil => decide
  | cons l ls ih =>
    show (l :: ls).length ≤ ((l.length :: l) ++ wireName ls).length
    simp only [List.length_cons, List.length_append]
    omega

theorem read16_at (front : ByteStr) (n : Nat) (t : ByteStr) (hn : n < 65536) :
    read16 (front ++ (be16 n ++ t)) front.length = n := by
  rw [read16]
  have h0 : (front ++ (be16 n ++ t)).getD front.length 0 = n / 256 % 256 := by
    have hg := getD_append_right front (be16 n ++ t) 0
    simpa [be16] using hg
  have h1 : (front ++ (be16 n ++ t)).getD (front.length + 1) 0 = n % 256 := by
    have hg := getD_append_right front (be16 n ++ t) 1
    simpa [be16] using hg
  rw [h0, h1]
  omega

/-- Claim C6: for every well-formed uncompressed question buffer — a sequence
of labels (each nonempty, at most 63 octets, containing no dot octet),
a terminating 0 octet, and 16-bit `qtype` and `qclass` — re-encoding the
decoded question reproduces the buffer exactly: the name decoder yields the
labels joined with dots, and encoding that name (split on dots) followed by
the parsed `qtype` and `qclass` gives back the original bytes. -/
theorem C6_question_roundtrip (b : ByteStr) (labels : List ByteStr) (qt qc : Nat)
    (hb : b = wireQuestion labels qt qc) (hgood : GoodLabels labels)
    (hne : labels ≠ []) (hqt : qt < 65536) (hqc : qc < 65536) :
    decode_question b = some (dotJoin labels, qt, qc) ∧
      encode_question (dotJoin labels) qt qc = b := by
  subst hb
  have hshape : wireQuestion labels qt qc
      = [] ++ (wireName labels ++ (be16 qt ++ be16 qc)) := by
    rw [wireQuestion]
    simp [List.append_assoc]
  have hlen4 : (wireQuestion labels qt qc).length = (wireName labels).length + 4 := by
    rw [wireQuestion]
    simp [be16, List.length_append]
  have hfuel : labels.length + 1 ≤ (wireQuestion labels qt qc).length + 1 := by
    have h1 := wireName_len_ge labels
    omega
  have hparse : parse_domain_name (wireQuestion labels qt qc)
      ((wireQuestion labels qt qc).length + 1) 0
      = some (true, dotJoin labels, (wireName labels).length) := by
    rw [parse_domain_name, initPState]
    have hg := parseGo_wireName labels [] (be16 qt ++ be16 qc) [] false 0
      ((wireQuestion labels qt qc).length + 1) hgood hfuel
    rw [← hshape] at hg
    simp only [List.length_nil] at hg
    rw [hg, foldl_joinD_nil labels (fun x hx => (hgood x hx).1)]
    simp
  have hjoin_ne : dotJoin labels ≠ [] := by
    cases labels with
    | nil => exact absurd rfl hne
    | cons l ls =>
      obtain ⟨hlne, -, -⟩ := hgood l (List.mem_cons_self l ls)
      rw [dotJoin]
      simp [hlne]
  constructor
  · rw [decode_question, hparse]
    dsimp only
    rw [if_neg hjoin_ne, if_pos (by omega)]
    have hr1 : read16 (wireQuestion labels qt qc) (wireName labels).length = qt := by
      have hr := read16_at (wireName labels) qt (be16 qc) hqt
      rw [← List.append_assoc] at hr
      exact hr
    have hr2 : read16 (wireQuestion labels qt qc) ((wireName labels).length + 2) = qc := by
      have hr := read16_at (wireName labels ++ be16 qt) qc [] hqc
      have hsh2 : (wireName labels ++ be16 qt) ++ (be16 qc ++ [])
          = wireQuestion labels qt qc := by
        rw [wireQuestion]
        simp
      have hl2 : (wireName labels ++ be16 qt : ByteStr).length
          = (wireName labels).length + 2 := by
        simp [be16, List.length_append]
      rw [hsh2, hl2] at hr
      exact hr
    rw [hr1, hr2]
  · rw [encode_question, encode_domain_name_dotJoin labels hgood, wireQuestion]

/-- Witness for C6 at a concrete input: the question `a. A IN`, wire form
`01 61 00 00 01 00 01`. -/
theorem C6_question_roundtrip_witness :
    decode_question [1, 97, 0, 0, 1, 0, 1] = some ([97], 1, 1) ∧
      encode_question [97] 1 1 = [1, 97, 0, 0, 1, 0, 1] := by
  have h := C6_question_roundtrip [1, 97, 0, 0, 1, 0, 1] [[97]] 1 1
    (by decide) (by decide) (by decide) (by decide) (by decide)
  exact h

/-- `::tolower` in the C locale, applied bytewise by the dispatcher. -/
def tolowerByte (b : Nat) : Nat := if 65 ≤ b ∧ b ≤ 90 then b + 32 else b

/-- 32-bit big-endian bytes as laid out by `htonl`. -/
def be32 (n : Nat) : ByteStr :=
  [n / 16777216 % 256, n / 65536 % 256, n / 256 % 256, n % 256]

/-- `PrecompiledResponses::get_response`: copy the stored packet and patch the
query-id field in place.  `id` is the pair of raw id octets, echoed in wire
order (the C++ copies the 16-bit field byte-for-byte). -/
def get_response (pre : List (ByteStr × ByteStr)) (domain : ByteStr)
    (id : Nat × Nat) : Option ByteStr :=
  match lookupKV pre domain with
  | none => none
  | some resp => some (id.1 :: id.2 :: resp.drop 2)

/-- `DNSServer::build_error_response`: a bare 12-octet header echoing the id,
flags `0x8180 | rcode`, all counts zero. -/
def build_error_response (id : Nat × Nat) (rcode : Nat) : ByteStr :=
  [id.1, id.2] ++ be16 (0x8180 ||| rcode) ++ [0, 0, 0, 0, 0, 0, 0, 0]

/-- `DNSServer::build_dns_response`.  `aton` models the external libc
`inet_aton`: the packed 4-byte form of a textual IPv4, `none` on parse failure
(in which case, exactly as in the source, no RDATA bytes are appended). -/
def build_dns_response (aton : ByteStr → Option ByteStr) (id : Nat × Nat)
    (qname ip : ByteStr) : ByteStr :=
  [id.1, id.2] ++ be16 0x8180 ++ be16 1 ++ be16 1 ++ be16 0 ++ be16 0
    ++ encode_domain_name qname
    ++ be16 1 ++ be16 1
    ++ [0xC0, 0x0C]
    ++ be16 1 ++ be16 1
    ++ be32 300
    ++ be16 4
    ++ (match aton ip with | some q => q | none => [])

/-- The dispatcher-relevant server state. -/
structure DNSServer where
  precompiled : List (ByteStr × ByteStr)
  cache : FastDNSCache
  total_queries : Nat
  cache_hits : Nat
  local_domain_hits : Nat

/-- What `DNSServer::handle_query` does with one datagram — each constructor is
one `return` site (`hang` marks the diverging name decoder, when the C++ loop
never returns). -/
inductive Outcome where
  | drop
  | hang
  | notimp (resp : ByteStr)
  | localHit (resp : ByteStr)
  | cachedHit (resp : ByteStr)
  | answered (resp : ByteStr)
  | servfail (resp : ByteStr)
deriving DecidableEq, Repr

/-- `DNSServer::handle_query`.  `resolve` is the blocking upstream resolver
(`resolve_upstream`, an external collaborator), `aton` the libc `inet_aton`,
`hash` the shard route, `now` the current instant.  Returns the reply decision
and the updated server state. -/
def handle_query (resolve : ByteStr → Option ByteStr) (aton : ByteStr → Option ByteStr)
    (hash : ByteStr → Fin NUM_SHARDS) (now : Nat) (sv : DNSServer) (data : ByteStr) :
    Outcome × DNSServer :=
  let sv := { sv with total_queries := sv.total_queries + 1 }
  if data.length < 12 then (.drop, sv)
  else
    let id : Nat × Nat := (data.getD 0 0, data.getD 1 0)
    if read16 data 4 ≠ 1 then (.drop, sv)
    else
      match parse_domain_name data (data.length + 1) 12 with
      | none => (.hang, sv)
      | some (_, qname, off) =>
        if qname = [] ∨ data.length < off + 4 then (.drop, sv)
        else
          let qtype := read16 data off
          let _qclass := read16 data (off + 2)
          if qtype ≠ 1 then (.notimp (build_error_response id 4), sv)
          else
            let domain := qname.map tolowerByte
            match get_response sv.precompiled domain id with
            | some resp =>
                (.localHit resp,
                 { sv with local_domain_hits := sv.local_domain_hits + 1 })
            | none =>
              let r := sv.cache.get hash now domain
              match r.1 with
              | some ip =>
                  (.cachedHit (build_dns_response aton id qname ip),
                   { sv with cache := r.2, cache_hits := sv.cache_hits + 1 })
              | none =>
                match resolve domain with
                | some ip =>
                    (.answered (build_dns_response aton id qname ip),
                     { sv with cache := (r.2).set hash now domain ip 300 })
                | none =>
                    (.servfail (build_error_response id 2), { sv with cache := r.2 })

/-- Claim C2 (amended): for a datagram that parses as a well-formed header with
`qdcount = 1` and a single question, the dispatcher replies NOTIMP (rcode 4,
echoing the raw query-id octets) and stops — touching no state but the query
counter — exactly when the question's `qtype` is not 1 (A).  The `qclass`
octets are parsed but never examined: a query with `qtype = 1` and any
`qclass` proceeds through the normal precompiled/cache/upstream paths and is
never answered with NOTIMP. -/
theorem C2_notimp_iff_qtype_not_A (resolve aton : ByteStr → Option ByteStr)
    (hash : ByteStr → Fin NUM_SHARDS) (now : Nat) (sv : DNSServer) (data : ByteStr)
    (ok : Bool) (qname : ByteStr) (off : Nat)
    (hlen : 12 ≤ data.length)
    (hqd : read16 data 4 = 1)
    (hparse : parse_domain_name data (data.length + 1) 12 = some (ok, qname, off))
    (hqname : qname ≠ [])
    (hoff : off + 4 ≤ data.length) :
    (read16 data off ≠ 1 →
      handle_query resolve aton hash now sv data
        = (.notimp (build_error_response (data.getD 0 0, data.getD 1 0) 4),
           { sv with total_queries := sv.total_queries + 1 })) ∧
    (read16 data off = 1 →
      ∀ r, (handle_query resolve aton hash now sv data).1 ≠ .notimp r) := by
  have hnl : ¬(data.length < 12) := by omega
  have hnoff : ¬(data.length < off + 4) := by omega
  constructor
  · intro hqt
    simp only [handle_query, if_neg hnl, hqd, hparse]
    simp [hqname, hnoff, hqt]
  · intro hqt r
    simp only [handle_query, if_neg hnl, hqd, hparse]
    simp [hqname, hnoff, hqt]
    split
    · simp
    · split
      · simp
      · split
        · simp
        · simp

/-- A freshly constructed server: no local domains, empty cache, zero counters. -/
def svEmpty : DNSServer := ⟨[], FastDNSCache.empty, 0, 0, 0⟩

/-- A concrete shard route (the hash is implementation-defined anyway). -/
def shard0 : Fin NUM_SHARDS := ⟨0, by decide⟩

/-- An AAAA query (`qtype = 28`) for `a.`, id `0x1234`, class IN. -/
def pktAAAA : ByteStr :=
  [18, 52, 1, 0, 0, 1, 0, 0, 0, 0, 0, 0, 1, 97, 0, 0, 28, 0, 1]

/-- An A query (`qtype = 1`) for `a.`, id `0x1234`, with `qclass = 2` (CH). -/
def pktAClass2 : ByteStr :=
  [18, 52, 1, 0, 0, 1, 0, 0, 0, 0, 0, 0, 1, 97, 0, 0, 1, 0, 2]

/-- Witness for C2 at a concrete input: the AAAA query receives a NOTIMP reply
echoing its id, and only the query counter moves. -/
theorem C2_notimp_iff_qtype_not_A_witness :
    handle_query (fun _ => none) (fun _ => none) (fun _ => shard0) 0
        svEmpty pktAAAA
      = (.notimp (build_error_response (18, 52) 4), { svEmpty with total_queries := 1 }) :=
  (C2_notimp_iff_qtype_not_A (fun _ => none) (fun _ => none)
      (fun _ => shard0) 0 svEmpty pktAAAA true [97] 15
      (by decide) (by decide) (by decide) (by decide) (by decide)).1 (by decide)

/-- Counterexample to claim C2 as stated: the A-query with `qclass = 2 ≠ 1` is
NOT answered with NOTIMP — `handle_query` never examines `qclass` — and on an
empty server with a failing upstream it falls through to SERVFAIL. -/
theorem C2_counterexample :
    (handle_query (fun _ => none) (fun _ => none) (fun _ => shard0) 0
        svEmpty pktAClass2).1
      = .servfail (build_error_response (18, 52) 2) ∧
    ∀ r, (handle_query (fun _ => none) (fun _ => none) (fun _ => shard0) 0
        svEmpty pktAClass2).1 ≠ .notimp r := by
  have h1 : (handle_query (fun _ => none) (fun _ => none) (fun _ => shard0) 0
      svEmpty pktAClass2).1 = .servfail (build_error_response (18, 52) 2) := by decide
  refine ⟨h1, fun r hr => ?_⟩
  rw [h1] at hr
  exact Outcome.noConfusion hr

/-- `DNSServer::PerformanceStats`.  In the source the struct has no default
member initializers and `get_performance_stats` declares a local
`PerformanceStats stats;`, so any field the function does not assign is left
indeterminate; such a field is modelled as `Option`, with `none` standing for
"never assigned".  Response times are exact rationals (the C++ doubles carry
measured durations; no claim depends on their rounding). -/
structure PerformanceStats where
  total_queries : Nat
  cache_hits : Nat
  local_domain_hits : Nat
  cache_hit_ratio : Option ℚ
  avg_response_time_ms : Option ℚ
  p95_response_time_ms : Option ℚ
  p99_response_time_ms : Option ℚ

/-- `DNSServer::get_performance_stats`, as a function of the three counters and
the response-time reservoir.  The ratio is assigned only under
`total_queries > 0`; the three time fields only when the reservoir is
nonempty.  The percentile index `size_t(n * 0.95)` is modelled as
`n * 95 / 100` in exact arithmetic. -/
def get_performance_stats (tq ch ldh : Nat) (response_times : List ℚ) :
    PerformanceStats :=
  { total_queries := tq
    cache_hits := ch
    local_domain_hits := ldh
    cache_hit_ratio := if 0 < tq then some (((ch : ℚ) + ldh) / tq) else none
    avg_response_time_ms :=
      if response_times.length ≠ 0 then
        some ((response_times.foldl (· + ·) 0) / response_times.length)
      else none
    p95_response_time_ms :=
      if response_times.length ≠ 0 then
        some ((response_times.mergeSort (fun a b => decide (a ≤ b))).getD
          (min (response_times.length * 95 / 100) (response_times.length - 1)) 0)
      else none
    p99_response_time_ms :=
      if response_times.length ≠ 0 then
        some ((response_times.mergeSort (fun a b => decide (a ≤ b))).getD
          (min (response_times.length * 99 / 100) (response_times.length - 1)) 0)
      else none }

/-- Claim C8 evaluated at the failing input: on a freshly started server
(`total_queries = 0`, empty reservoir) `cache_hit_ratio` is never assigned —
the C++ field stays uninitialized rather than holding the zero the claim
requires.  With `total_queries > 0` the assigned value is
`(cache_hits + local_domain_hits) / total_queries`, shown here at a concrete
input. -/
theorem C8_ratio_unassigned_on_fresh_server :
    (get_performance_stats 0 0 0 []).cache_hit_ratio = none ∧
      (get_performance_stats 4 1 2 []).cache_hit_ratio = some ((1 + 2 : ℚ) / 4) := by
  constructor
  · rfl
  · rw [get_performance_stats, if_pos (by decide)]
    norm_num
